import Mathlib

/-!
# Verification of the lexcode order-preserving binary codec

Shallow embedding of the `lexcode` Rust crate:
* `src/varint.rs` — order-preserving variable-length integers (u128 / i128),
* `src/ser.rs`    — the serializer primitives (varint integers, bool, sentinel
  framing for strings and byte strings, raw-byte mode for `FixedBytes`),
* `src/de.rs`     — the deserializer primitives (raw fixed-width reads,
  sentinel framing, the `from_bytes` trailing-byte check),
* `src/fixed_bytes.rs` — the `FixedBytes<N>` zero-overhead byte block.

Bytes (`u8`) are modelled as `Nat` (all functions produce values `< 256`);
`u128` as `Nat` (claims are stated with the bound `v < 2^128`); `i128` as
`Int` with the bound `-2^127 ≤ v < 2^127`.  Byte buffers (`Vec<u8>`,
`&[u8]`) are `List Nat`.  Rust `Result<T, Error>` becomes `Outcome T`,
which also has a `panicked` constructor modelling a Rust panic (the
deserializer indexes slices without bounds checks, so it can panic on
truncated input).

`src/error.rs` is declared by `lib.rs` but absent from the sources, so the
`Error` type is modelled from the spec (§7) plus the `TrailingCharacters`
variant that `de.rs` uses.
-/

set_option maxRecDepth 8000

namespace Lexcode

/-- Modelled from the spec: `src/error.rs` is missing from the sources.
Spec §7 lists `Eof`, `InvalidEncoding`, `IntegerOverflow`, `Unsupported`
and `Message(string)`; `de.rs` additionally uses `Error::TrailingCharacters`
and `varint.rs` uses `Error::Eof`. -/
inductive Error where
  | Eof : Error
  | InvalidEncoding : Error
  | IntegerOverflow : Error
  | TrailingCharacters : Error
  | Unsupported : Error
  | Message : String → Error
deriving DecidableEq, Repr

/-- Result of running a Rust function: `Ok`, `Err`, or a panic
(out-of-bounds slice index).  `varint.rs` never panics; `de.rs` can. -/
inductive Outcome (α : Type) where
  | ok : α → Outcome α
  | err : Error → Outcome α
  | panicked : Outcome α
deriving DecidableEq, Repr

/-! ## varint.rs — level tables -/

/-- `UNSIGNED_DATA_BITS` from `varint.rs`. -/
def UNSIGNED_DATA_BITS : List Nat :=
  [7, 14, 21, 28, 35, 42, 49, 56, 71, 78, 85, 92, 99, 106, 113, 120, 128]

/-- `SIGNED_DATA_BITS` from `varint.rs`. -/
def SIGNED_DATA_BITS : List Nat :=
  [6, 13, 20, 27, 34, 41, 48, 63, 70, 77, 84, 91, 98, 105, 112, 127]

/-- The body of `compute_unsigned_offsets` / `compute_signed_offsets`:
`offsets[0] = 0`, `offsets[i] = offsets[i-1] + 2^bits[i-1]` (with the
`u128::MAX` sentinel when `bits[i-1] ≥ 128`; that branch is dead for both
tables, whose last used entry is below 128). -/
def computeOffsetsGo : Nat → List Nat → List Nat
  | _, [] => []
  | prev, b :: rest =>
      prev :: computeOffsetsGo (if 128 ≤ b then 2 ^ 128 - 1 else prev + 2 ^ b) rest

/-- `UNSIGNED_OFFSETS` from `varint.rs`. -/
def UNSIGNED_OFFSETS : List Nat := computeOffsetsGo 0 UNSIGNED_DATA_BITS

/-- `SIGNED_OFFSETS` from `varint.rs`. -/
def SIGNED_OFFSETS : List Nat := computeOffsetsGo 0 SIGNED_DATA_BITS

/-- The loop of `find_level`, scanning `level` upward to `last`; the
fuel argument counts the remaining iterations `last - level`, making the
Rust `for level in 0..last` loop a structural recursion. -/
def find_level_fuel (v : Nat) (offsets : List Nat) (last : Nat) :
    Nat → Nat → Nat
  | _level, 0 => last
  | level, fuel + 1 =>
    if v < offsets.getD (level + 1) 0 then level
    else find_level_fuel v offsets last (level + 1) fuel

/-- The loop of `find_level`, scanning `level` upward to `last`. -/
def find_level_go (v : Nat) (offsets : List Nat) (last : Nat) (level : Nat) : Nat :=
  find_level_fuel v offsets last level (last - level)

/-- `find_level_go` satisfies the recursion of the Rust loop. -/
theorem find_level_go_eq (v : Nat) (offsets : List Nat) (last level : Nat) :
    find_level_go v offsets last level =
      if level < last then
        if v < offsets.getD (level + 1) 0 then level
        else find_level_go v offsets last (level + 1)
      else last := by
  unfold find_level_go
  rcases h : last - level with _ | n
  · rw [if_neg (by omega)]
    rfl
  · rw [if_pos (by omega)]
    show (if v < offsets.getD (level + 1) 0 then level
      else find_level_fuel v offsets last (level + 1) n) = _
    rw [show last - (level + 1) = n from by omega]

/-- `find_level` from `varint.rs`: the first `level < offsets.len() - 1`
with `v < offsets[level + 1]`, else the last level. -/
def find_level (v : Nat) (offsets : List Nat) : Nat :=
  find_level_go v offsets (offsets.length - 1) 0

/-! ## varint.rs — helpers -/

/-- Embedding of `u8::leading_ones` restricted to the top `w` bits:
counts consecutive 1-bits from bit `w - 1` downward. -/
def leadingOnesW : Nat → Nat → Nat
  | 0, _ => 0
  | w + 1, b => if (b >>> w) &&& 1 = 1 then leadingOnesW w b + 1 else 0

/-- `first.leading_ones()` on a `u8`. -/
def leading_ones_u8 (b : Nat) : Nat := leadingOnesW 8 b

/-- `leading_ones_in_7bits` from `varint.rs`: `(v << 1).leading_ones()`
computed on the `u8` result of the shift. -/
def leading_ones_in_7bits (v : Nat) : Nat := leadingOnesW 8 ((v <<< 1) % 256)

/-- `leading_ones_byte` from `varint.rs`: a byte with `n` leading 1-bits.
`!0u8 << (8 - n)` truncates to 8 bits, hence the `% 256`. -/
def leading_ones_byte (n : Nat) : Nat :=
  if n = 0 then 0 else if 8 ≤ n then 0xFF else (0xFF <<< (8 - n)) % 256

/-- `leading_ones_7bit` from `varint.rs`: bits 6..0 carry `n` leading
1-bits, bit 7 stays 0 (`leading_ones_byte n >> 1`). -/
def leading_ones_7bit (n : Nat) : Nat :=
  if n = 0 then 0 else leading_ones_byte n >>> 1

/-- `low_mask_u8` from `varint.rs`. -/
def low_mask_u8 (bits : Nat) : Nat :=
  if bits = 0 then 0 else if 8 ≤ bits then 0xFF else (1 <<< bits) - 1

/-- `low_mask_128` from `varint.rs`. -/
def low_mask_128 (bits : Nat) : Nat :=
  if bits = 0 then 0 else if 128 ≤ bits then 2 ^ 128 - 1 else (1 <<< bits) - 1

/-- `extract_top_bits` from `varint.rs`: the top `want` data bits above an
`extra_bytes`-byte big-endian tail. -/
def extract_top_bits (data extra_bytes want : Nat) : Nat :=
  if want = 0 then 0
  else if 128 ≤ 8 * extra_bytes then 0
  else (data >>> (8 * extra_bytes)) &&& low_mask_128 want

/-- `write_be_tail` from `varint.rs`: the bottom `n` bytes of `data` in
big-endian order (`data >> (8*i)` truncated to a byte, `i = n-1, …, 0`). -/
def write_be_tail (data n : Nat) : List Nat :=
  (List.range n).reverse.map fun i =>
    if 128 ≤ 8 * i then 0 else (data >>> (8 * i)) % 256

/-- `assemble_be` from `varint.rs`: fold the big-endian bytes onto the
header data bits (`(v << 8) | b` on `u128`, hence the `% 2^128`). -/
def assemble_be (prefixBits : Nat) (bytes : List Nat) : Nat :=
  bytes.foldl (fun v b => ((v <<< 8) % 2 ^ 128) ||| b) prefixBits

/-! ## varint.rs — unsigned encoding -/

/-- `encode_uint` from `varint.rs` (the bytes appended to the output). -/
def encode_uint (v : Nat) : List Nat :=
  let level := find_level v UNSIGNED_OFFSETS
  let data := v - UNSIGNED_OFFSETS.getD level 0
  (if level ≤ 7 then
    [leading_ones_byte level ||| extract_top_bits data level (7 - level)]
  else if level ≤ 15 then
    let m := level - 8
    [0xFF, leading_ones_byte m ||| extract_top_bits data level (7 - m)]
  else
    [0xFF, 0xFF]) ++ write_be_tail data level

/-- The tail of `decode_uint` after the header has been classified:
check the length, assemble `input[header_len..total]`, add the offset. -/
def decode_uint_finish (input : List Nat) (level header_data header_len : Nat) :
    Outcome (Nat × Nat) :=
  let total := header_len + level
  if input.length < total then .err .Eof
  else
    let data := assemble_be header_data ((input.take total).drop header_len)
    .ok (data + UNSIGNED_OFFSETS.getD level 0, total)

/-- `decode_uint` from `varint.rs`: returns `(value, bytes_consumed)`. -/
def decode_uint (input : List Nat) : Outcome (Nat × Nat) :=
  match input with
  | [] => .err .Eof
  | first :: rest =>
    if first ≠ 0xFF then
      decode_uint_finish input (leading_ones_u8 first)
        (first &&& low_mask_u8 (7 - leading_ones_u8 first)) 1
    else
      match rest with
      | [] => .err .Eof
      | second :: _ =>
        if second ≠ 0xFF then
          decode_uint_finish input (8 + leading_ones_u8 second)
            (second &&& low_mask_u8 (7 - leading_ones_u8 second)) 2
        else
          decode_uint_finish input 16 0 2

/-! ## varint.rs — signed encoding -/

/-- `encode_sint_magnitude` from `varint.rs`: the 7-bit sub-header scheme;
bit 7 of the first byte is left 0 for the caller. -/
def encode_sint_magnitude (v : Nat) : List Nat :=
  let level := find_level v SIGNED_OFFSETS
  let data := v - SIGNED_OFFSETS.getD level 0
  (if level ≤ 6 then
    [leading_ones_7bit level ||| extract_top_bits data level (6 - level)]
  else if level ≤ 14 then
    let m := level - 7
    [0x7F, leading_ones_byte m ||| extract_top_bits data level (7 - m)]
  else
    [0x7F, 0xFF, extract_top_bits data 15 7]) ++ write_be_tail data level

/-- `encode_sint` from `varint.rs`.  For `v ≥ 0` the magnitude encoding
with bit 7 of its first byte set (`out[start] |= 0x80`); for `v < 0` the
magnitude is `|v| - 1 = -(v+1)`, bit 7 is set and then every byte is
bit-complemented (`!b`, i.e. `b ^^^ 0xFF` on a byte). -/
def encode_sint (v : Int) : List Nat :=
  if 0 ≤ v then
    match encode_sint_magnitude v.toNat with
    | [] => []
    | b0 :: rest => (b0 ||| 0x80) :: rest
  else
    let magnitude := (-(v + 1)).toNat
    (match encode_sint_magnitude magnitude with
      | [] => []
      | b0 :: rest => (b0 ||| 0x80) :: rest).map fun b => b ^^^ 0xFF

/-- The common tail of `decode_sint_magnitude`: bounds-check the data
bytes, assemble `rest[data_start..data_end]`, add the signed offset.
Returns `(magnitude, 1 + data_end)` — one for the first (sub-header)
byte plus what was consumed from `rest`. -/
def decode_sint_finish (rest : List Nat) (level header_data extra_header_bytes : Nat) :
    Outcome (Nat × Nat) :=
  let data_start := extra_header_bytes
  let data_end := data_start + level
  if rest.length < data_end then .err .Eof
  else
    let data := assemble_be header_data ((rest.take data_end).drop data_start)
    .ok (data + SIGNED_OFFSETS.getD level 0, 1 + data_end)

/-- `decode_sint_magnitude` from `varint.rs`: classify the 7-bit
sub-header `sub` (and, when it is `0x7F`, the next header byte(s) from
`rest`), then assemble the magnitude. -/
def decode_sint_magnitude (sub : Nat) (rest : List Nat) : Outcome (Nat × Nat) :=
  if sub ≠ 0x7F then
    decode_sint_finish rest (leading_ones_in_7bits sub)
      (sub &&& low_mask_u8 (6 - leading_ones_in_7bits sub)) 0
  else
    match rest with
    | [] => .err .Eof
    | second :: rest2 =>
      if second ≠ 0xFF then
        decode_sint_finish rest (7 + leading_ones_u8 second)
          (second &&& low_mask_u8 (7 - leading_ones_u8 second)) 1
      else
        match rest2 with
        | [] => .err .Eof
        | third :: _ => decode_sint_finish rest 15 (third &&& 0x7F) 2

/-- `sint_total_len` from `varint.rs`: total encoded length of a signed
value, read from the (possibly complemented) header bytes. -/
def sint_total_len (sub : Nat) (rest : List Nat) (complemented : Bool) : Outcome Nat :=
  if sub ≠ 0x7F then .ok (1 + leading_ones_in_7bits sub)
  else
    match rest with
    | [] => .err .Eof
    | r0 :: _ =>
      if (if complemented then r0 ^^^ 0xFF else r0) ≠ 0xFF then
        .ok (2 + (7 + leading_ones_u8 (if complemented then r0 ^^^ 0xFF else r0)))
      else .ok (3 + 15)

/-- `decode_sint` from `varint.rs`: returns `(value, bytes_consumed)`. -/
def decode_sint (input : List Nat) : Outcome (Int × Nat) :=
  match input with
  | [] => .err .Eof
  | first :: rest =>
    if first &&& 0x80 ≠ 0 then
      match decode_sint_magnitude (first &&& 0x7F) rest with
      | .ok (mag, consumed) => .ok ((mag : Int), consumed)
      | .err e => .err e
      | .panicked => .panicked
    else
      match sint_total_len ((first ^^^ 0xFF) &&& 0x7F) rest true with
      | .err e => .err e
      | .panicked => .panicked
      | .ok total_len =>
        if (first :: rest).length < total_len then .err .Eof
        else
          -- buf = bit-complement of the first total_len input bytes;
          -- total_len ≥ 1 always, so buf[0] is the complement of first.
          match ((first :: rest).take total_len).map (fun b => b ^^^ 0xFF) with
          | [] => .panicked  -- unreachable: total_len ≥ 1
          | b0 :: brest =>
            match decode_sint_magnitude (b0 &&& 0x7F) brest with
            | .ok (mag, _consumed) => .ok (-(mag : Int) - 1, total_len)
            | .err e => .err e
            | .panicked => .panicked

/-! ## ser.rs — serializer primitives

`to_bytes` creates `Serializer { output: vec![], raw_byte_mode: false }`
and runs the shape's `Serialize` impl.  For each concrete shape used by
the claims, the fully applied pipeline is given below. -/

/-- `Serializer::serialize_with_sentinel` from `ser.rs`: every byte is
emitted, a byte equal to the sentinel is followed by `0x01`, and the
encoding ends with `sentinel 0x00`. -/
def serialize_with_sentinel (data : List Nat) (sentinel : Nat) : List Nat :=
  (data.flatMap fun byte => if byte = sentinel then [byte, 0x01] else [byte])
    ++ [sentinel, 0x00]

/-- `serialize_u8` from `ser.rs`: a raw byte in raw-byte mode, otherwise
an unsigned varint. -/
def serialize_u8 (raw_byte_mode : Bool) (v : Nat) : List Nat :=
  if raw_byte_mode then [v] else encode_uint v

/-- `to_bytes::<bool>`: `serialize_bool` pushes `1` or `0`. -/
def to_bytes_bool (v : Bool) : List Nat := [if v then 1 else 0]

/-- `to_bytes::<u8>`: `serialize_u8` with `raw_byte_mode = false`, so an
unsigned varint. -/
def to_bytes_u8 (v : Nat) : List Nat := serialize_u8 false v

/-- `to_bytes::<u16>`: `serialize_u16` is `encode_uint(v as u128)`. -/
def to_bytes_u16 (v : Nat) : List Nat := encode_uint v

/-- `to_bytes::<u32>`: `serialize_u32` is `encode_uint(v as u128)`. -/
def to_bytes_u32 (v : Nat) : List Nat := encode_uint v

/-- `to_bytes::<i16>`: `serialize_i16` is `encode_sint(v as i128)`. -/
def to_bytes_i16 (v : Int) : List Nat := encode_sint v

/-- `to_bytes::<FixedBytes<N>>` from `ser.rs` + `fixed_bytes.rs`:
`serialize_tuple_struct` with the reserved name sets `raw_byte_mode`,
each array byte goes through `serialize_u8` in raw mode, and `end`
clears the flag again. -/
def to_bytes_fixed_bytes (a : List Nat) : List Nat :=
  a.foldl (fun out v => out ++ serialize_u8 true v) []

/-! ## de.rs — deserializer primitives

`Deserializer` holds the remaining input slice.  Each primitive returns
the visited value together with the remaining input.  `de.rs` indexes
`self.input[0]` (and fixed-width slices) without a bounds check, so a
read past the end of the input is a Rust panic, modelled as
`Outcome.panicked`. -/

/-- `deserialize_bool` from `de.rs`: one raw byte, `0`/`1` only. -/
def deserialize_bool (input : List Nat) : Outcome (Bool × List Nat) :=
  match input with
  | [] => .panicked  -- self.input[0] on an empty slice
  | byte :: rest =>
    if byte = 0 then .ok (false, rest)
    else if byte = 1 then .ok (true, rest)
    else .err (.Message "Invalid boolean value")

/-- `deserialize_u8` from `de.rs`: one raw byte, no varint decoding. -/
def deserialize_u8 (input : List Nat) : Outcome (Nat × List Nat) :=
  match input with
  | [] => .panicked
  | byte :: rest => .ok (byte, rest)

/-- `deserialize_i8` from `de.rs`: one raw byte, `wrapping_sub(128)`,
reinterpreted as `i8` (two's complement). -/
def deserialize_i8 (input : List Nat) : Outcome (Int × List Nat) :=
  match input with
  | [] => .panicked
  | byte :: rest =>
    let w := (byte + 128) % 256  -- (byte as u8).wrapping_sub(128)
    .ok (if w < 128 then (w : Int) else (w : Int) - 256, rest)

/-- `deserialize_u16` from `de.rs`: two raw big-endian bytes
(`&self.input[0..2]` panics when fewer than two bytes remain). -/
def deserialize_u16 (input : List Nat) : Outcome (Nat × List Nat) :=
  match input with
  | b0 :: b1 :: rest => .ok (b0 * 256 + b1, rest)
  | _ => .panicked

/-- `deserialize_option` of a payload deserializer, from `de.rs`:
one tag byte, `0` = none, `1` = some payload. -/
def deserialize_option {α : Type}
    (payload : List Nat → Outcome (α × List Nat)) (input : List Nat) :
    Outcome (Option α × List Nat) :=
  match input with
  | [] => .panicked
  | byte :: rest =>
    if byte = 0 then .ok (none, rest)
    else if byte = 1 then
      match payload rest with
      | .ok (v, rem) => .ok (some v, rem)
      | .err e => .err e
      | .panicked => .panicked
    else .err (.Message "Invalid option encoding")

/-- `Deserializer::deserialize_with_sentinel` from `de.rs`: read bytes
until the sentinel; sentinel followed by `0x00` terminates, by `0x01`
appends a literal sentinel, anything else is malformed. -/
def deserialize_with_sentinel (sentinel : Nat) (input : List Nat) :
    Outcome (List Nat × List Nat) :=
  match input with
  | [] => .panicked
  | byte :: rest =>
    if byte = sentinel then
      match rest with
      | [] => .panicked
      | next :: rest2 =>
        if next = 0 then .ok ([], rest2)
        else if next = 1 then
          match deserialize_with_sentinel sentinel rest2 with
          | .ok (bytes, rem) => .ok (sentinel :: bytes, rem)
          | .err e => .err e
          | .panicked => .panicked
        else .err (.Message "Invalid encoding")
    else
      match deserialize_with_sentinel sentinel rest with
      | .ok (bytes, rem) => .ok (byte :: bytes, rem)
      | .err e => .err e
      | .panicked => .panicked
termination_by input.length

/-- The element loop of `deserialize_tuple` for `FixedBytes<N>`
(`fixed_bytes.rs` `visit_seq` + `de.rs` `TupleAccess`): exactly `n`
elements, each a `u8` read (`deserialize_u8`, always a raw byte). -/
def deserialize_fixed_bytes (n : Nat) (input : List Nat) :
    Outcome (List Nat × List Nat) :=
  match n with
  | 0 => .ok ([], input)
  | k + 1 =>
    match deserialize_u8 input with
    | .ok (b, rest) =>
      match deserialize_fixed_bytes k rest with
      | .ok (bs, rem) => .ok (b :: bs, rem)
      | .err e => .err e
      | .panicked => .panicked
    | .err e => .err e
    | .panicked => .panicked

/-- The top-level `from_bytes` wrapper from `de.rs`: run the shape's
deserializer, then fail with `TrailingCharacters` unless the input was
consumed entirely. -/
def run_from_bytes {α : Type}
    (de : List Nat → Outcome (α × List Nat)) (input : List Nat) : Outcome α :=
  match de input with
  | .ok (v, rest) => if rest.isEmpty then .ok v else .err .TrailingCharacters
  | .err e => .err e
  | .panicked => .panicked

/-- `from_bytes::<bool>`. -/
def from_bytes_bool : List Nat → Outcome Bool := run_from_bytes deserialize_bool

/-- `from_bytes::<u8>`. -/
def from_bytes_u8 : List Nat → Outcome Nat := run_from_bytes deserialize_u8

/-- `from_bytes::<i8>`. -/
def from_bytes_i8 : List Nat → Outcome Int := run_from_bytes deserialize_i8

/-- `from_bytes::<u16>`. -/
def from_bytes_u16 : List Nat → Outcome Nat := run_from_bytes deserialize_u16

/-- `from_bytes::<FixedBytes<N>>`. -/
def from_bytes_fixed_bytes (n : Nat) : List Nat → Outcome (List Nat) :=
  run_from_bytes (deserialize_fixed_bytes n)

/-- Number of occurrences of the escape pair `S 0x01` in a byte string
(used to state spec §8 property 8). -/
def count_escape_pairs (S : Nat) : List Nat → Nat
  | x :: y :: rest =>
      (if x = S ∧ y = 1 then 1 else 0) + count_escape_pairs S (y :: rest)
  | _ => 0
termination_by l => l.length

/-! ## Arithmetic infrastructure -/

/-- A bitwise-or with a value occupying only the low `k` bits of an
otherwise `2^k`-aligned number is an addition. -/
theorem lor_two_pow_mul_add {k q b : Nat} (hb : b < 2 ^ k) :
    (2 ^ k * q) ||| b = 2 ^ k * q + b := by
  induction k generalizing q b with
  | zero =>
    interval_cases b
    simp
  | succ k ih =>
    have ha2 : (2 ^ (k + 1) * q) % 2 = 0 := by
      have : 2 ^ (k + 1) * q = 2 * (2 ^ k * q) := by ring
      omega
    have hmod : ((2 ^ (k + 1) * q) ||| b) % 2 = b % 2 := by
      rcases Nat.mod_two_eq_zero_or_one b with hb2 | hb2
      · have h1 : ¬ ((2 ^ (k + 1) * q) ||| b) % 2 = 1 := by
          rw [Nat.or_mod_two_eq_one]
          omega
        omega
      · have h1 : ((2 ^ (k + 1) * q) ||| b) % 2 = 1 := by
          rw [Nat.or_mod_two_eq_one]
          omega
        omega
    have hdiv : ((2 ^ (k + 1) * q) ||| b) / 2 = 2 ^ k * q + b / 2 := by
      rw [Nat.or_div_two]
      have h1 : 2 ^ (k + 1) * q / 2 = 2 ^ k * q := by
        have : 2 ^ (k + 1) * q = 2 ^ k * q * 2 := by ring
        rw [this, Nat.mul_div_cancel]
        omega
      rw [h1, ih (by omega)]
    have hsplit := Nat.div_add_mod ((2 ^ (k + 1) * q) ||| b) 2
    have hb' : 2 ^ (k + 1) * q + b = 2 * (2 ^ k * q + b / 2) + b % 2 := by
      have : 2 ^ (k + 1) * q = 2 * (2 ^ k * q) := by ring
      omega
    omega

/-- Byte decomposition of a mod: the next-higher byte of `data`. -/
theorem mod_two_pow_succ_byte (data n : Nat) :
    data % 2 ^ (8 * (n + 1)) =
      data / 2 ^ (8 * n) % 256 * 2 ^ (8 * n) + data % 2 ^ (8 * n) := by
  have h : (2 : Nat) ^ (8 * (n + 1)) = 2 ^ (8 * n) * 256 := by
    rw [show 8 * (n + 1) = 8 * n + 8 by ring, pow_add]
    norm_num
  rw [h, Nat.mod_mul]
  ring

/-! ## Finite (decidable) facts about the byte-level helpers -/

/-- The unsigned header byte: `n` leading 1-bits, a 0, then the data bits
`d`.  The bitwise-or is an addition, the byte stays below `0xFF`, the
decoder recovers `n` by counting leading ones and `d` by masking. -/
theorem unsigned_header_facts : ∀ n, n < 8 → ∀ d, d < 2 ^ (7 - n) →
    leading_ones_byte n ||| d = leading_ones_byte n + d ∧
    leading_ones_byte n + d < 255 ∧
    leading_ones_u8 (leading_ones_byte n + d) = n ∧
    (leading_ones_byte n + d) &&& low_mask_u8 (7 - n) = d := by decide

/-- Value of the unsigned header prefix. -/
theorem leading_ones_byte_eq : ∀ n, n < 8 →
    leading_ones_byte n = 256 - 2 ^ (8 - n) := by decide

/-- The signed (7-bit sub-header) first byte: `n` leading 1-bits in bits
6..0, then the data bits `d`; bit 7 stays clear. -/
theorem signed_header_facts : ∀ n, n < 7 → ∀ d, d < 2 ^ (6 - n) →
    leading_ones_7bit n ||| d = leading_ones_7bit n + d ∧
    leading_ones_7bit n + d < 127 ∧
    leading_ones_in_7bits (leading_ones_7bit n + d) = n ∧
    (leading_ones_7bit n + d) &&& low_mask_u8 (6 - n) = d := by decide

/-- Value of the signed sub-header prefix. -/
theorem leading_ones_7bit_eq : ∀ n, n < 8 →
    leading_ones_7bit n = 128 - 2 ^ (7 - n) := by decide

/-- Setting and reading the sign bit on a magnitude first byte `b < 128`,
and the interaction with bit-complement. -/
theorem sign_bit_facts : ∀ b, b < 128 →
    b ||| 128 = b + 128 ∧
    (b + 128) &&& 128 ≠ 0 ∧
    (b + 128) &&& 127 = b ∧
    (b + 128) ^^^ 255 = 127 - b ∧
    (127 - b) &&& 128 = 0 ∧
    (127 - b) ^^^ 255 = b + 128 ∧
    b &&& 127 = b := by decide

/-- Bit-complement of a byte is an involution and equals `255 - b`. -/
theorem compl_byte_facts : ∀ b, b < 256 →
    b ^^^ 255 = 255 - b ∧ (b ^^^ 255) ^^^ 255 = b ∧ b ^^^ 255 < 256 := by decide

/-- `leading_ones_in_7bits` of the exhausted sub-header. -/
theorem leading_ones_in_7bits_0x7F : leading_ones_in_7bits 0x7F = 7 := by decide

/-! ## `find_level` specification -/

theorem find_level_go_spec (v : Nat) (o : List Nat) (last : Nat) :
    ∀ n level, last - level = n → level ≤ last →
      level ≤ find_level_go v o last level ∧
      find_level_go v o last level ≤ last ∧
      (find_level_go v o last level < last →
        v < o.getD (find_level_go v o last level + 1) 0) ∧
      ∀ k, level ≤ k → k < find_level_go v o last level → o.getD (k + 1) 0 ≤ v := by
  intro n
  induction n with
  | zero =>
    intro level hn hle
    have heq : ¬ level < last := by omega
    rw [find_level_go_eq, if_neg heq]
    exact ⟨hle, Nat.le_refl _, fun h => absurd h (by omega), fun k hk1 hk2 => by omega⟩
  | succ n ih =>
    intro level hn hle
    have hlt : level < last := by omega
    rw [find_level_go_eq, if_pos hlt]
    by_cases hv : v < o.getD (level + 1) 0
    · rw [if_pos hv]
      exact ⟨Nat.le_refl _, by omega, fun _ => hv, fun k hk1 hk2 => by omega⟩
    · rw [if_neg hv]
      obtain ⟨h1, h2, h3, h4⟩ := ih (level + 1) (by omega) (by omega)
      refine ⟨by omega, h2, h3, fun k hk1 hk2 => ?_⟩
      by_cases hk : level + 1 ≤ k
      · exact h4 k hk hk2
      · have : k = level := by omega
        subst this
        omega

/-- Concrete value of the unsigned offset table. -/
theorem unsigned_offsets_val : UNSIGNED_OFFSETS =
    [0, 128, 16512, 2113664, 270549120, 34630287488, 4432676798592,
     567382630219904, 72624976668147840, 2361255866411490754688,
     304592710770068784431232, 38990218938438202375028864,
     4990750376079959301971525760, 638816050490194660050323128448,
     81768454465096876355839328272512, 10466362171534752133416831986712704,
     1339694357956450625037223892267057280] := by decide

/-- Concrete value of the signed offset table. -/
theorem signed_offsets_val : SIGNED_OFFSETS =
    [0, 64, 8256, 1056832, 135274560, 17315143744, 2216338399296,
     283691315109952, 9223655728169885760, 1189815276445581189184,
     152305542728274228027456, 19495118656562341023326272,
     2495375197227322890821574720, 319408025254284673264997376064,
     40884227232557625521159499948096, 5233181085767385254051655829168192] := by decide

/-- `find_level` against the unsigned table: the chosen level bounds `v`. -/
theorem find_level_unsigned (v : Nat) :
    UNSIGNED_OFFSETS.getD (find_level v UNSIGNED_OFFSETS) 0 ≤ v ∧
    find_level v UNSIGNED_OFFSETS ≤ 16 ∧
    (find_level v UNSIGNED_OFFSETS < 16 →
      v < UNSIGNED_OFFSETS.getD (find_level v UNSIGNED_OFFSETS + 1) 0) := by
  have hlen : UNSIGNED_OFFSETS.length - 1 = 16 := by rw [unsigned_offsets_val]; rfl
  have h := find_level_go_spec v UNSIGNED_OFFSETS 16 16 0 (by omega) (by omega)
  rw [find_level, hlen]
  obtain ⟨h1, h2, h3, h4⟩ := h
  refine ⟨?_, h2, h3⟩
  rcases Nat.eq_zero_or_pos (find_level_go v UNSIGNED_OFFSETS 16 0) with h0 | h0
  · rw [h0, unsigned_offsets_val]
    exact Nat.zero_le v
  · have := h4 (find_level_go v UNSIGNED_OFFSETS 16 0 - 1) (by omega) (by omega)
    have heq : find_level_go v UNSIGNED_OFFSETS 16 0 - 1 + 1 =
        find_level_go v UNSIGNED_OFFSETS 16 0 := by omega
    rwa [heq] at this

/-- `find_level` against the signed table: the chosen level bounds `v`. -/
theorem find_level_signed (v : Nat) :
    SIGNED_OFFSETS.getD (find_level v SIGNED_OFFSETS) 0 ≤ v ∧
    find_level v SIGNED_OFFSETS ≤ 15 ∧
    (find_level v SIGNED_OFFSETS < 15 →
      v < SIGNED_OFFSETS.getD (find_level v SIGNED_OFFSETS + 1) 0) := by
  have hlen : SIGNED_OFFSETS.length - 1 = 15 := by rw [signed_offsets_val]; rfl
  have h := find_level_go_spec v SIGNED_OFFSETS 15 15 0 (by omega) (by omega)
  rw [find_level, hlen]
  obtain ⟨h1, h2, h3, h4⟩ := h
  refine ⟨?_, h2, h3⟩
  rcases Nat.eq_zero_or_pos (find_level_go v SIGNED_OFFSETS 15 0) with h0 | h0
  · rw [h0, signed_offsets_val]
    exact Nat.zero_le v
  · have := h4 (find_level_go v SIGNED_OFFSETS 15 0 - 1) (by omega) (by omega)
    have heq : find_level_go v SIGNED_OFFSETS 15 0 - 1 + 1 =
        find_level_go v SIGNED_OFFSETS 15 0 := by omega
    rwa [heq] at this

/-! ## `write_be_tail` / `assemble_be` -/

theorem write_be_tail_length (data n : Nat) : (write_be_tail data n).length = n := by
  simp [write_be_tail]

theorem write_be_tail_zero (data : Nat) : write_be_tail data 0 = [] := by
  simp [write_be_tail]

theorem write_be_tail_succ (data n : Nat) (hn : n < 16) :
    write_be_tail data (n + 1) =
      ((data >>> (8 * n)) % 256) :: write_be_tail data n := by
  simp only [write_be_tail, List.range_succ, List.reverse_append, List.reverse_cons,
    List.reverse_nil, List.nil_append, List.cons_append, List.map_cons]
  rw [if_neg (by omega)]

theorem write_be_tail_mem_lt (data n : Nat) :
    ∀ x ∈ write_be_tail data n, x < 256 := by
  intro x hx
  simp only [write_be_tail, List.mem_map] at hx
  obtain ⟨i, _, hi⟩ := hx
  split at hi <;> omega

theorem assemble_be_nil (p : Nat) : assemble_be p [] = p := rfl

theorem assemble_be_cons (p b : Nat) (l : List Nat) :
    assemble_be p (b :: l) = assemble_be (((p <<< 8) % 2 ^ 128) ||| b) l := rfl

/-- Reassembling the big-endian tail written by `write_be_tail` under a
header-bit prefix recovers `p * 2^(8n) + data mod 2^(8n)`. -/
theorem assemble_write (n : Nat) (hn : n ≤ 16) :
    ∀ p data, (p + 1) * 2 ^ (8 * n) ≤ 2 ^ 128 →
      assemble_be p (write_be_tail data n) =
        p * 2 ^ (8 * n) + data % 2 ^ (8 * n) := by
  induction n with
  | zero =>
    intro p data _
    rw [write_be_tail_zero, assemble_be_nil]
    simp [Nat.mod_one]
  | succ n ih =>
    intro p data hp
    have hn' : n < 16 := by omega
    have hpow : (256 : Nat) ≤ 2 ^ (8 * (n + 1)) := by
      calc (256 : Nat) = 2 ^ 8 := by norm_num
      _ ≤ 2 ^ (8 * (n + 1)) := Nat.pow_le_pow_right (by omega) (by omega)
    have hp256 : (p + 1) * 256 ≤ 2 ^ 128 := by
      calc (p + 1) * 256 ≤ (p + 1) * 2 ^ (8 * (n + 1)) :=
            Nat.mul_le_mul_left _ hpow
      _ ≤ 2 ^ 128 := hp
    rw [write_be_tail_succ data n hn', assemble_be_cons]
    have hshift : (p <<< 8) % 2 ^ 128 = p * 256 := by
      rw [Nat.shiftLeft_eq]
      norm_num
      omega
    have hbyte : (data >>> (8 * n)) % 256 < 256 := Nat.mod_lt _ (by omega)
    have hlor : (p * 256) ||| ((data >>> (8 * n)) % 256) =
        p * 256 + (data >>> (8 * n)) % 256 := by
      have := lor_two_pow_mul_add (k := 8) (q := p) (b := (data >>> (8 * n)) % 256)
        (by norm_num at hbyte ⊢; omega)
      calc (p * 256) ||| ((data >>> (8 * n)) % 256)
          = (2 ^ 8 * p) ||| ((data >>> (8 * n)) % 256) := by ring_nf
      _ = 2 ^ 8 * p + (data >>> (8 * n)) % 256 := this
      _ = p * 256 + (data >>> (8 * n)) % 256 := by ring
    rw [hshift, hlor]
    have hih := ih (by omega) (p * 256 + (data >>> (8 * n)) % 256) data
      (by
        have h1 : p * 256 + (data >>> (8 * n)) % 256 + 1 ≤ (p + 1) * 256 := by omega
        calc (p * 256 + (data >>> (8 * n)) % 256 + 1) * 2 ^ (8 * n)
            ≤ (p + 1) * 256 * 2 ^ (8 * n) := Nat.mul_le_mul_right _ h1
        _ = (p + 1) * 2 ^ (8 * (n + 1)) := by
              rw [show 8 * (n + 1) = 8 * n + 8 by ring, pow_add]
              ring_nf
        _ ≤ 2 ^ 128 := hp)
    rw [hih, Nat.shiftRight_eq_div_pow, mod_two_pow_succ_byte]
    ring

/-! ## Offset-table gap facts (decided concretely) -/

/-- Width of each low unsigned level: `offset[l+1] - offset[l] = 2^(7+7l)`,
written in split form. -/
theorem unsigned_gap_low : ∀ l, l < 8 →
    UNSIGNED_OFFSETS.getD (l + 1) 0 - UNSIGNED_OFFSETS.getD l 0 =
      2 ^ (7 - l) * 2 ^ (8 * l) := by decide

/-- Width of each two-header unsigned level. -/
theorem unsigned_gap_mid : ∀ l, l < 16 → 8 ≤ l →
    UNSIGNED_OFFSETS.getD (l + 1) 0 - UNSIGNED_OFFSETS.getD l 0 =
      2 ^ (7 - (l - 8)) * 2 ^ (8 * l) := by decide

/-- Width of each low signed level. -/
theorem signed_gap_low : ∀ l, l < 7 →
    SIGNED_OFFSETS.getD (l + 1) 0 - SIGNED_OFFSETS.getD l 0 =
      2 ^ (6 - l) * 2 ^ (8 * l) := by decide

/-- Width of each two-header signed level. -/
theorem signed_gap_mid : ∀ l, l < 15 → 7 ≤ l →
    SIGNED_OFFSETS.getD (l + 1) 0 - SIGNED_OFFSETS.getD l 0 =
      2 ^ (7 - (l - 7)) * 2 ^ (8 * l) := by decide

/-- The unsigned offset table is monotone. -/
theorem unsigned_offsets_mono : ∀ i, i < 17 → ∀ j, j < 17 → i ≤ j →
    UNSIGNED_OFFSETS.getD i 0 ≤ UNSIGNED_OFFSETS.getD j 0 := by decide

/-- The signed offset table is monotone. -/
theorem signed_offsets_mono : ∀ i, i < 16 → ∀ j, j < 16 → i ≤ j →
    SIGNED_OFFSETS.getD i 0 ≤ SIGNED_OFFSETS.getD j 0 := by decide

/-! ## Structure of the unsigned encoding -/

/-- Structural description of `encode_uint v` for `v < 2^128`: the chosen
level, the data residue and its bound, and the explicit byte shape of the
output with the bitwise-or already turned into addition. -/
theorem encode_uint_struct (v : Nat) (hv : v < 2 ^ 128) (l data : Nat)
    (hl : l = find_level v UNSIGNED_OFFSETS)
    (hd : data = v - UNSIGNED_OFFSETS.getD l 0) :
    UNSIGNED_OFFSETS.getD l 0 + data = v ∧ l ≤ 16 ∧
    (l ≤ 7 → data < 2 ^ (7 - l) * 2 ^ (8 * l) ∧
      encode_uint v =
        (leading_ones_byte l + data >>> (8 * l)) :: write_be_tail data l) ∧
    (8 ≤ l → l ≤ 15 → data < 2 ^ (7 - (l - 8)) * 2 ^ (8 * l) ∧
      encode_uint v =
        255 :: (leading_ones_byte (l - 8) + data >>> (8 * l)) ::
          write_be_tail data l) ∧
    (l = 16 → data < 2 ^ 128 ∧
      encode_uint v = 255 :: 255 :: write_be_tail data 16) := by
  obtain ⟨hlo, hle, hhi⟩ := find_level_unsigned v
  rw [← hl] at hlo hle hhi
  have hsum : UNSIGNED_OFFSETS.getD l 0 + data = v := by omega
  have henc : encode_uint v =
      (if l ≤ 7 then
        [leading_ones_byte l ||| extract_top_bits data l (7 - l)]
      else if l ≤ 15 then
        [0xFF, leading_ones_byte (l - 8) ||| extract_top_bits data l (7 - (l - 8))]
      else
        [0xFF, 0xFF]) ++ write_be_tail data l := by
    simp only [encode_uint]
    rw [← hl, ← hd]
  refine ⟨hsum, hle, ?_, ?_, ?_⟩
  · intro h7
    have hgap := unsigned_gap_low l (by omega)
    have hup := hhi (by omega)
    have hdata : data < 2 ^ (7 - l) * 2 ^ (8 * l) := by omega
    have hdiv : data >>> (8 * l) < 2 ^ (7 - l) := by
      rw [Nat.shiftRight_eq_div_pow]
      exact Nat.div_lt_of_lt_mul (by rw [Nat.mul_comm] at hdata; exact hdata)
    have htop : extract_top_bits data l (7 - l) = data >>> (8 * l) := by
      by_cases h0 : (7 : Nat) - l = 0
      · rw [extract_top_bits, if_pos h0]
        rw [h0, pow_zero] at hdiv
        exact (Nat.lt_one_iff.mp hdiv).symm
      · rw [extract_top_bits, if_neg h0, if_neg (by omega)]
        rw [low_mask_128, if_neg h0, if_neg (by omega), Nat.shiftLeft_eq,
          one_mul, Nat.and_pow_two_sub_one_eq_mod, Nat.mod_eq_of_lt hdiv]
    have hor := (unsigned_header_facts l (by omega) _ hdiv).1
    refine ⟨hdata, ?_⟩
    rw [henc, if_pos h7, htop, hor]
    rfl
  · intro h8 h15
    have hgap := unsigned_gap_mid l (by omega) h8
    have hup := hhi (by omega)
    have hdata : data < 2 ^ (7 - (l - 8)) * 2 ^ (8 * l) := by omega
    have hdiv : data >>> (8 * l) < 2 ^ (7 - (l - 8)) := by
      rw [Nat.shiftRight_eq_div_pow]
      exact Nat.div_lt_of_lt_mul (by rw [Nat.mul_comm] at hdata; exact hdata)
    have htop : extract_top_bits data l (7 - (l - 8)) = data >>> (8 * l) := by
      by_cases h0 : (7 : Nat) - (l - 8) = 0
      · rw [extract_top_bits, if_pos h0]
        rw [h0, pow_zero] at hdiv
        exact (Nat.lt_one_iff.mp hdiv).symm
      · rw [extract_top_bits, if_neg h0, if_neg (by omega)]
        rw [low_mask_128, if_neg h0, if_neg (by omega), Nat.shiftLeft_eq,
          one_mul, Nat.and_pow_two_sub_one_eq_mod, Nat.mod_eq_of_lt hdiv]
    have hor := (unsigned_header_facts (l - 8) (by omega) _ hdiv).1
    refine ⟨hdata, ?_⟩
    rw [henc, if_neg (by omega), if_pos h15, htop, hor]
    rfl
  · intro h16
    subst h16
    have hdata : data < 2 ^ 128 := by omega
    rw [henc, if_neg (by omega), if_neg (by omega)]
    exact ⟨hdata, rfl⟩

/-! ## Unsigned round-trip -/

/-- Dividing off the tail bytes then re-multiplying recovers `data`. -/
theorem top_mul_add_mod (data k : Nat) :
    (data >>> k) * 2 ^ k + data % 2 ^ k = data := by
  rw [Nat.shiftRight_eq_div_pow, Nat.mul_comm]
  exact Nat.div_add_mod data (2 ^ k)

/-- Header bits above an `l`-byte tail fit `2^128` whenever the total bit
budget does. -/
theorem header_mul_pow_le (top w l : Nat) (h : top < 2 ^ w)
    (hwl : w + 8 * l ≤ 128) :
    (top + 1) * 2 ^ (8 * l) ≤ 2 ^ 128 := by
  calc (top + 1) * 2 ^ (8 * l)
      ≤ 2 ^ w * 2 ^ (8 * l) := Nat.mul_le_mul_right _ (by omega)
  _ = 2 ^ (w + 8 * l) := (pow_add 2 _ _).symm
  _ ≤ 2 ^ 128 := Nat.pow_le_pow_right (by omega) hwl

/-- Unfolding of `decode_uint` on a nonempty input. -/
theorem decode_uint_cons (first : Nat) (rest : List Nat) :
    decode_uint (first :: rest) =
      if first ≠ 0xFF then
        decode_uint_finish (first :: rest) (leading_ones_u8 first)
          (first &&& low_mask_u8 (7 - leading_ones_u8 first)) 1
      else
        match rest with
        | [] => .err .Eof
        | second :: _ =>
          if second ≠ 0xFF then
            decode_uint_finish (first :: rest) (8 + leading_ones_u8 second)
              (second &&& low_mask_u8 (7 - leading_ones_u8 second)) 2
          else decode_uint_finish (first :: rest) 16 0 2 := rfl

theorem decode_uint_finish_write (pre : List Nat) (level top data header_len : Nat)
    (hpre : pre.length = header_len) (hl : level ≤ 16)
    (hp : (top + 1) * 2 ^ (8 * level) ≤ 2 ^ 128) :
    decode_uint_finish (pre ++ write_be_tail data level) level top header_len =
      .ok (top * 2 ^ (8 * level) + data % 2 ^ (8 * level) +
        UNSIGNED_OFFSETS.getD level 0, header_len + level) := by
  have hlen : (pre ++ write_be_tail data level).length = header_len + level := by
    simp [write_be_tail_length, hpre]
  simp only [decode_uint_finish]
  rw [if_neg (by omega), List.take_of_length_le (by omega), List.drop_left' hpre,
    assemble_write level hl top data hp]

/-- Round-trip of the unsigned varint: decoding the encoding of any
`v < 2^128` succeeds and consumes exactly the encoding. -/
theorem decode_encode_uint (v : Nat) (hv : v < 2 ^ 128) :
    decode_uint (encode_uint v) = .ok (v, (encode_uint v).length) := by
  obtain ⟨hsum, hle, hlow, hmid, hhigh⟩ :=
    encode_uint_struct v hv (find_level v UNSIGNED_OFFSETS)
      (v - UNSIGNED_OFFSETS.getD (find_level v UNSIGNED_OFFSETS) 0) rfl rfl
  rcases Nat.lt_or_ge (find_level v UNSIGNED_OFFSETS) 8 with h7 | h8
  · -- levels 0..7: single header byte
    obtain ⟨hdata, henc⟩ := hlow (by omega)
    set l := find_level v UNSIGNED_OFFSETS with hl
    set data := v - UNSIGNED_OFFSETS.getD l 0 with hd
    have hdiv : data >>> (8 * l) < 2 ^ (7 - l) := by
      rw [Nat.shiftRight_eq_div_pow]
      exact Nat.div_lt_of_lt_mul (by rw [Nat.mul_comm] at hdata; exact hdata)
    obtain ⟨_, hlt, hcount, hmask⟩ :=
      unsigned_header_facts l (by omega) (data >>> (8 * l)) hdiv
    rw [henc, decode_uint_cons]
    rw [if_pos (by omega : ¬ leading_ones_byte l + data >>> (8 * l) = 255),
      hcount, hmask]
    rw [show (leading_ones_byte l + data >>> (8 * l)) :: write_be_tail data l =
      [leading_ones_byte l + data >>> (8 * l)] ++ write_be_tail data l from rfl]
    rw [decode_uint_finish_write [_] l (data >>> (8 * l)) data 1 rfl (by omega)
      (header_mul_pow_le _ (7 - l) l hdiv (by omega))]
    rw [top_mul_add_mod]
    have hlength : ([leading_ones_byte l + data >>> (8 * l)] ++
        write_be_tail data l).length = 1 + l := by
      simp only [List.length_append, List.length_cons, List.length_nil,
        write_be_tail_length]
    rw [hlength]
    have : data + UNSIGNED_OFFSETS.getD l 0 = v := by omega
    rw [this]
  rcases Nat.lt_or_ge (find_level v UNSIGNED_OFFSETS) 16 with h15 | h16
  · -- levels 8..15: 0xFF then a second header byte
    obtain ⟨hdata, henc⟩ := hmid (by omega) (by omega)
    set l := find_level v UNSIGNED_OFFSETS with hl
    set data := v - UNSIGNED_OFFSETS.getD l 0 with hd
    have hdiv : data >>> (8 * l) < 2 ^ (7 - (l - 8)) := by
      rw [Nat.shiftRight_eq_div_pow]
      exact Nat.div_lt_of_lt_mul (by rw [Nat.mul_comm] at hdata; exact hdata)
    obtain ⟨_, hlt, hcount, hmask⟩ :=
      unsigned_header_facts (l - 8) (by omega) (data >>> (8 * l)) hdiv
    rw [henc, decode_uint]
    rw [if_neg (by omega : ¬ ¬ (255 : Nat) = 255)]
    rw [if_pos (by omega :
      ¬ leading_ones_byte (l - 8) + data >>> (8 * l) = 255)]
    rw [hcount, hmask]
    rw [show (255 : Nat) :: (leading_ones_byte (l - 8) + data >>> (8 * l)) ::
        write_be_tail data l =
      [255, leading_ones_byte (l - 8) + data >>> (8 * l)] ++
        write_be_tail data l from rfl]
    rw [show 8 + (l - 8) = l by omega]
    rw [decode_uint_finish_write [_, _] l (data >>> (8 * l)) data 2 rfl
      (by omega) (header_mul_pow_le _ (7 - (l - 8)) l hdiv (by omega))]
    rw [top_mul_add_mod]
    have hlength : ([255, leading_ones_byte (l - 8) + data >>> (8 * l)] ++
        write_be_tail data l).length = 2 + l := by
      simp only [List.length_append, List.length_cons, List.length_nil,
        write_be_tail_length]
    rw [hlength]
    have : data + UNSIGNED_OFFSETS.getD l 0 = v := by omega
    rw [this]
  · -- level 16: 0xFF 0xFF then 16 data bytes
    have h16' : find_level v UNSIGNED_OFFSETS = 16 := by omega
    obtain ⟨hdata, henc⟩ := hhigh h16'
    set data := v - UNSIGNED_OFFSETS.getD (find_level v UNSIGNED_OFFSETS) 0
      with hd
    rw [henc, decode_uint]
    rw [if_neg (by omega : ¬ ¬ (255 : Nat) = 255)]
    rw [if_neg (by omega : ¬ ¬ (255 : Nat) = 255)]
    rw [show (255 : Nat) :: (255 : Nat) :: write_be_tail data 16 =
      [255, 255] ++ write_be_tail data 16 from rfl]
    rw [decode_uint_finish_write [_, _] 16 0 data 2 rfl (by omega) (by omega)]
    have hmod : data % 2 ^ (8 * 16) = data := Nat.mod_eq_of_lt (by norm_num; omega)
    rw [hmod]
    have hlength : ([255, 255] ++ write_be_tail data 16).length = 2 + 16 := by
      simp only [List.length_append, List.length_cons, List.length_nil,
        write_be_tail_length]
    rw [hlength]
    have : 0 * 2 ^ (8 * 16) + data + UNSIGNED_OFFSETS.getD 16 0 = v := by
      rw [h16'] at hsum
      omega
    rw [this]

/-! ## Structure of the signed magnitude encoding -/

/-- Structural description of `encode_sint_magnitude m` for `m < 2^127`. -/
theorem encode_sint_magnitude_struct (m : Nat) (hm : m < 2 ^ 127) (l data : Nat)
    (hl : l = find_level m SIGNED_OFFSETS)
    (hd : data = m - SIGNED_OFFSETS.getD l 0) :
    SIGNED_OFFSETS.getD l 0 + data = m ∧ l ≤ 15 ∧
    (l ≤ 6 → data < 2 ^ (6 - l) * 2 ^ (8 * l) ∧
      encode_sint_magnitude m =
        (leading_ones_7bit l + data >>> (8 * l)) :: write_be_tail data l) ∧
    (7 ≤ l → l ≤ 14 → data < 2 ^ (7 - (l - 7)) * 2 ^ (8 * l) ∧
      encode_sint_magnitude m =
        127 :: (leading_ones_byte (l - 7) + data >>> (8 * l)) ::
          write_be_tail data l) ∧
    (l = 15 → data < 2 ^ 127 ∧
      encode_sint_magnitude m =
        127 :: 255 :: (data >>> 120) :: write_be_tail data 15) := by
  obtain ⟨hlo, hle, hhi⟩ := find_level_signed m
  rw [← hl] at hlo hle hhi
  have hsum : SIGNED_OFFSETS.getD l 0 + data = m := by omega
  have henc : encode_sint_magnitude m =
      (if l ≤ 6 then
        [leading_ones_7bit l ||| extract_top_bits data l (6 - l)]
      else if l ≤ 14 then
        [0x7F, leading_ones_byte (l - 7) ||| extract_top_bits data l (7 - (l - 7))]
      else
        [0x7F, 0xFF, extract_top_bits data 15 7]) ++ write_be_tail data l := by
    simp only [encode_sint_magnitude]
    rw [← hl, ← hd]
  refine ⟨hsum, hle, ?_, ?_, ?_⟩
  · intro h6
    have hgap := signed_gap_low l (by omega)
    have hup := hhi (by omega)
    have hdata : data < 2 ^ (6 - l) * 2 ^ (8 * l) := by omega
    have hdiv : data >>> (8 * l) < 2 ^ (6 - l) := by
      rw [Nat.shiftRight_eq_div_pow]
      exact Nat.div_lt_of_lt_mul (by rw [Nat.mul_comm] at hdata; exact hdata)
    have htop : extract_top_bits data l (6 - l) = data >>> (8 * l) := by
      by_cases h0 : (6 : Nat) - l = 0
      · rw [extract_top_bits, if_pos h0]
        rw [h0, pow_zero] at hdiv
        exact (Nat.lt_one_iff.mp hdiv).symm
      · rw [extract_top_bits, if_neg h0, if_neg (by omega)]
        rw [low_mask_128, if_neg h0, if_neg (by omega), Nat.shiftLeft_eq,
          one_mul, Nat.and_pow_two_sub_one_eq_mod, Nat.mod_eq_of_lt hdiv]
    have hor := (signed_header_facts l (by omega) _ hdiv).1
    refine ⟨hdata, ?_⟩
    rw [henc, if_pos h6, htop, hor]
    rfl
  · intro h7 h14
    have hgap := signed_gap_mid l (by omega) h7
    have hup := hhi (by omega)
    have hdata : data < 2 ^ (7 - (l - 7)) * 2 ^ (8 * l) := by omega
    have hdiv : data >>> (8 * l) < 2 ^ (7 - (l - 7)) := by
      rw [Nat.shiftRight_eq_div_pow]
      exact Nat.div_lt_of_lt_mul (by rw [Nat.mul_comm] at hdata; exact hdata)
    have htop : extract_top_bits data l (7 - (l - 7)) = data >>> (8 * l) := by
      by_cases h0 : (7 : Nat) - (l - 7) = 0
      · rw [extract_top_bits, if_pos h0]
        rw [h0, pow_zero] at hdiv
        exact (Nat.lt_one_iff.mp hdiv).symm
      · rw [extract_top_bits, if_neg h0, if_neg (by omega)]
        rw [low_mask_128, if_neg h0, if_neg (by omega), Nat.shiftLeft_eq,
          one_mul, Nat.and_pow_two_sub_one_eq_mod, Nat.mod_eq_of_lt hdiv]
    have hor := (unsigned_header_facts (l - 7) (by omega) _ hdiv).1
    refine ⟨hdata, ?_⟩
    rw [henc, if_neg (by omega), if_pos h14, htop, hor]
    rfl
  · intro h15
    subst h15
    have hdata : data < 2 ^ 127 := by omega
    have hdiv : data >>> 120 < 2 ^ 7 := by
      rw [Nat.shiftRight_eq_div_pow]
      refine Nat.div_lt_of_lt_mul ?_
      calc data < 2 ^ 127 := hdata
      _ = 2 ^ 120 * 2 ^ 7 := by norm_num
    have htop : extract_top_bits data 15 7 = data >>> 120 := by
      rw [extract_top_bits, if_neg (by omega), if_neg (by omega)]
      rw [low_mask_128, if_neg (by omega), if_neg (by omega), Nat.shiftLeft_eq,
        one_mul]
      rw [show (8 : Nat) * 15 = 120 from rfl, Nat.and_pow_two_sub_one_eq_mod,
        Nat.mod_eq_of_lt hdiv]
    refine ⟨hdata, ?_⟩
    rw [henc, if_neg (by omega), if_neg (by omega), htop]
    rfl

/-! ## Signed magnitude round-trip -/

theorem decode_sint_finish_write (pre : List Nat) (level top data extra : Nat)
    (hpre : pre.length = extra) (hl : level ≤ 16)
    (hp : (top + 1) * 2 ^ (8 * level) ≤ 2 ^ 128) :
    decode_sint_finish (pre ++ write_be_tail data level) level top extra =
      .ok (top * 2 ^ (8 * level) + data % 2 ^ (8 * level) +
        SIGNED_OFFSETS.getD level 0, 1 + (extra + level)) := by
  have hlen : (pre ++ write_be_tail data level).length = extra + level := by
    simp [write_be_tail_length, hpre]
  simp only [decode_sint_finish]
  rw [if_neg (by omega), List.take_of_length_le (by omega), List.drop_left' hpre,
    assemble_write level hl top data hp]

/-- Unfolding of `decode_sint_magnitude` on an unexhausted sub-header. -/
theorem decode_sint_magnitude_not7F (sub : Nat) (rest : List Nat)
    (h : ¬ sub = 0x7F) :
    decode_sint_magnitude sub rest =
      decode_sint_finish rest (leading_ones_in_7bits sub)
        (sub &&& low_mask_u8 (6 - leading_ones_in_7bits sub)) 0 := by
  rw [decode_sint_magnitude.eq_def, if_pos h]

/-- Unfolding of `sint_total_len` on an unexhausted sub-header. -/
theorem sint_total_len_not7F (sub : Nat) (rest : List Nat) (c : Bool)
    (h : ¬ sub = 0x7F) :
    sint_total_len sub rest c = .ok (1 + leading_ones_in_7bits sub) := by
  rw [sint_total_len.eq_def, if_pos h]

/-- Unfolding of `decode_sint_magnitude` when the sub-header is exhausted. -/
theorem decode_sint_magnitude_7F (second : Nat) (rest2 : List Nat) :
    decode_sint_magnitude 0x7F (second :: rest2) =
      if second ≠ 0xFF then
        decode_sint_finish (second :: rest2) (7 + leading_ones_u8 second)
          (second &&& low_mask_u8 (7 - leading_ones_u8 second)) 1
      else
        match rest2 with
        | [] => .err .Eof
        | third :: _ =>
            decode_sint_finish (second :: rest2) 15 (third &&& 0x7F) 2 := by
  rw [decode_sint_magnitude.eq_def, if_neg (by omega)]

/-- Unfolding of `sint_total_len` on an exhausted sub-header and a
complemented nonempty remainder. -/
theorem sint_total_len_7F_cons_true (r0 : Nat) (rest : List Nat) :
    sint_total_len 0x7F (r0 :: rest) true =
      if r0 ^^^ 0xFF ≠ 0xFF then
        .ok (2 + (7 + leading_ones_u8 (r0 ^^^ 0xFF)))
      else .ok (3 + 15) := by
  rw [sint_total_len.eq_def, if_neg (by omega)]
  rfl

/-- The full specification of the signed magnitude encoding for
`m < 2^127`: its first byte has bit 7 clear, every byte is a byte,
`decode_sint_magnitude` inverts it consuming its exact length, and
`sint_total_len` recovers that length from the complemented tail. -/
theorem encode_sint_magnitude_spec (m : Nat) (hm : m < 2 ^ 127) :
    ∃ b0 brest,
      encode_sint_magnitude m = b0 :: brest ∧
      b0 < 128 ∧
      (∀ x ∈ b0 :: brest, x < 256) ∧
      decode_sint_magnitude b0 brest = .ok (m, 1 + brest.length) ∧
      sint_total_len b0 (brest.map fun b => b ^^^ 255) true =
        .ok (1 + brest.length) := by
  obtain ⟨hsum, hle, hlow, hmid, hhigh⟩ :=
    encode_sint_magnitude_struct m hm (find_level m SIGNED_OFFSETS)
      (m - SIGNED_OFFSETS.getD (find_level m SIGNED_OFFSETS) 0) rfl rfl
  rcases Nat.lt_or_ge (find_level m SIGNED_OFFSETS) 7 with h6 | h7
  · -- levels 0..6: single sub-header byte
    obtain ⟨hdata, henc⟩ := hlow (by omega)
    set l := find_level m SIGNED_OFFSETS with hl
    set data := m - SIGNED_OFFSETS.getD l 0 with hd
    have hdiv : data >>> (8 * l) < 2 ^ (6 - l) := by
      rw [Nat.shiftRight_eq_div_pow]
      exact Nat.div_lt_of_lt_mul (by rw [Nat.mul_comm] at hdata; exact hdata)
    obtain ⟨_, hlt, hcount, hmask⟩ :=
      signed_header_facts l (by omega) (data >>> (8 * l)) hdiv
    refine ⟨leading_ones_7bit l + data >>> (8 * l), write_be_tail data l,
      henc, by omega, ?_, ?_, ?_⟩
    · intro x hx
      rcases List.mem_cons.mp hx with h | h
      · omega
      · exact write_be_tail_mem_lt data l x h
    · rw [decode_sint_magnitude_not7F _ _ (by omega), hcount, hmask]
      have hfin := decode_sint_finish_write [] l (data >>> (8 * l)) data 0 rfl
        (by omega) (header_mul_pow_le _ (6 - l) l hdiv (by omega))
      rw [List.nil_append] at hfin
      rw [hfin, top_mul_add_mod, write_be_tail_length,
        show data + SIGNED_OFFSETS.getD l 0 = m by omega]
      norm_num
    · rw [sint_total_len_not7F _ _ _ (by omega), hcount, write_be_tail_length]
  rcases Nat.lt_or_ge (find_level m SIGNED_OFFSETS) 15 with h14 | h15
  · -- levels 7..14: 0x7F then a second header byte
    obtain ⟨hdata, henc⟩ := hmid (by omega) (by omega)
    set l := find_level m SIGNED_OFFSETS with hl
    set data := m - SIGNED_OFFSETS.getD l 0 with hd
    have hdiv : data >>> (8 * l) < 2 ^ (7 - (l - 7)) := by
      rw [Nat.shiftRight_eq_div_pow]
      exact Nat.div_lt_of_lt_mul (by rw [Nat.mul_comm] at hdata; exact hdata)
    obtain ⟨_, hlt, hcount, hmask⟩ :=
      unsigned_header_facts (l - 7) (by omega) (data >>> (8 * l)) hdiv
    refine ⟨127, (leading_ones_byte (l - 7) + data >>> (8 * l)) ::
      write_be_tail data l, henc, by omega, ?_, ?_, ?_⟩
    · intro x hx
      rcases List.mem_cons.mp hx with h | h
      · omega
      rcases List.mem_cons.mp h with h2 | h2
      · omega
      · exact write_be_tail_mem_lt data l x h2
    · rw [decode_sint_magnitude_7F, if_pos (by omega), hcount, hmask]
      rw [show (leading_ones_byte (l - 7) + data >>> (8 * l)) ::
          write_be_tail data l =
        [leading_ones_byte (l - 7) + data >>> (8 * l)] ++
          write_be_tail data l from rfl]
      rw [show 7 + (l - 7) = l by omega]
      rw [decode_sint_finish_write [_] l (data >>> (8 * l)) data 1 rfl
        (by omega) (header_mul_pow_le _ (7 - (l - 7)) l hdiv (by omega))]
      rw [top_mul_add_mod, show data + SIGNED_OFFSETS.getD l 0 = m by omega]
      simp only [List.length_append, List.length_cons, List.length_nil,
        write_be_tail_length]
    · have hinv :
          (leading_ones_byte (l - 7) + data >>> (8 * l)) ^^^ 255 ^^^ 255 =
            leading_ones_byte (l - 7) + data >>> (8 * l) :=
        (compl_byte_facts _ (by omega)).2.1
      rw [List.map_cons, sint_total_len_7F_cons_true, hinv,
        if_pos (by omega), hcount]
      simp only [List.length_cons, write_be_tail_length]
      congr 1
      omega
  · -- level 15: 0x7F 0xFF, a 7-bit third byte, 15 data bytes
    have h15' : find_level m SIGNED_OFFSETS = 15 := by omega
    obtain ⟨hdata, henc⟩ := hhigh h15'
    set data := m - SIGNED_OFFSETS.getD (find_level m SIGNED_OFFSETS) 0 with hd
    have hdiv : data >>> 120 < 2 ^ 7 := by
      rw [Nat.shiftRight_eq_div_pow]
      refine Nat.div_lt_of_lt_mul ?_
      calc data < 2 ^ 127 := hdata
      _ = 2 ^ 120 * 2 ^ 7 := by norm_num
    have hand : data >>> 120 &&& 127 = data >>> 120 :=
      (sign_bit_facts (data >>> 120) (by omega)).2.2.2.2.2.2
    refine ⟨127, 255 :: (data >>> 120) :: write_be_tail data 15,
      henc, by omega, ?_, ?_, ?_⟩
    · intro x hx
      rcases List.mem_cons.mp hx with h | h
      · omega
      rcases List.mem_cons.mp h with h2 | h2
      · omega
      rcases List.mem_cons.mp h2 with h3 | h3
      · omega
      · exact write_be_tail_mem_lt data 15 x h3
    · rw [decode_sint_magnitude_7F, if_neg (by omega)]
      show decode_sint_finish (255 :: data >>> 120 :: write_be_tail data 15) 15
        (data >>> 120 &&& 127) 2 = _
      rw [hand]
      rw [show (255 : Nat) :: (data >>> 120) :: write_be_tail data 15 =
        [255, data >>> 120] ++ write_be_tail data 15 from rfl]
      rw [decode_sint_finish_write [_, _] 15 (data >>> 120) data 2 rfl
        (by omega) (by
          have := header_mul_pow_le (data >>> 120) 7 15 hdiv (by omega)
          exact this)]
      rw [show (8 : Nat) * 15 = 120 from rfl, top_mul_add_mod,
        show data + SIGNED_OFFSETS.getD 15 0 = m by rw [h15'] at hsum; omega]
      rw [show (([255, data >>> 120] : List Nat) ++
          write_be_tail data 15).length = 17 by simp [write_be_tail_length]]
    · rw [List.map_cons, sint_total_len_7F_cons_true,
        if_neg (by decide)]
      rw [show ((255 : Nat) :: data >>> 120 :: write_be_tail data 15).length = 17
        by simp [write_be_tail_length]]

/-! ## Signed round-trip -/

/-- Unfolding of `decode_sint` on a nonempty input. -/
theorem decode_sint_cons (first : Nat) (rest : List Nat) :
    decode_sint (first :: rest) =
      if first &&& 0x80 ≠ 0 then
        match decode_sint_magnitude (first &&& 0x7F) rest with
        | .ok (mag, consumed) => .ok ((mag : Int), consumed)
        | .err e => .err e
        | .panicked => .panicked
      else
        match sint_total_len ((first ^^^ 0xFF) &&& 0x7F) rest true with
        | .err e => .err e
        | .panicked => .panicked
        | .ok total_len =>
          if (first :: rest).length < total_len then .err .Eof
          else
            match ((first :: rest).take total_len).map (fun b => b ^^^ 0xFF) with
            | [] => .panicked
            | b0 :: brest =>
              match decode_sint_magnitude (b0 &&& 0x7F) brest with
              | .ok (mag, _consumed) => .ok (-(mag : Int) - 1, total_len)
              | .err e => .err e
              | .panicked => .panicked := rfl

/-- Complementing every byte twice is the identity. -/
theorem map_compl_compl (l : List Nat) (h : ∀ x ∈ l, x < 256) :
    (l.map fun b => b ^^^ 255).map (fun b => b ^^^ 255) = l := by
  induction l with
  | nil => rfl
  | cons a t ih =>
    simp only [List.map_cons, List.cons.injEq]
    exact ⟨(compl_byte_facts a (h a (List.mem_cons_self a t))).2.1,
      ih fun x hx => h x (List.mem_cons_of_mem a hx)⟩

/-- Round-trip of the signed varint: decoding the encoding of any i128
value succeeds and consumes exactly the encoding. -/
theorem decode_encode_sint (v : Int) (hlov : -(2 ^ 127) ≤ v)
    (hhiv : v < 2 ^ 127) :
    decode_sint (encode_sint v) = .ok (v, (encode_sint v).length) := by
  have h2 : ((2 : Int) ^ 127) = 170141183460469231731687303715884105728 := by
    norm_num
  have h2n : ((2 : Nat) ^ 127) = 170141183460469231731687303715884105728 := by
    norm_num
  by_cases hv : 0 ≤ v
  · -- nonnegative: magnitude with sign bit set
    have hm : v.toNat < 2 ^ 127 := by omega
    obtain ⟨b0, brest, henc, hb0, _hbytes, hdec, _hstl⟩ :=
      encode_sint_magnitude_spec v.toNat hm
    obtain ⟨hor, hne, hand127, _, _, _, _⟩ := sign_bit_facts b0 hb0
    have hencs : encode_sint v = (b0 + 128) :: brest := by
      rw [encode_sint.eq_def, if_pos hv, henc, ← hor]
    rw [hencs, decode_sint_cons, if_pos (by omega), hand127, hdec]
    show Outcome.ok ((v.toNat : Int), 1 + brest.length) =
      Outcome.ok (v, ((b0 + 128) :: brest).length)
    rw [Int.toNat_of_nonneg hv]
    simp only [List.length_cons]
    norm_num
    omega
  · -- negative: complemented magnitude of -(v+1)
    have hvneg : v < 0 := by omega
    have hmnn : (0 : Int) ≤ -(v + 1) := by omega
    have hm : (-(v + 1)).toNat < 2 ^ 127 := by omega
    obtain ⟨b0, brest, henc, hb0, hbytes, hdec, hstl⟩ :=
      encode_sint_magnitude_spec (-(v + 1)).toNat hm
    obtain ⟨hor, _, hand127, hxor, hand128, hxor2, _⟩ := sign_bit_facts b0 hb0
    have hencs : encode_sint v =
        (127 - b0) :: brest.map (fun b => b ^^^ 255) := by
      simp only [encode_sint]
      rw [if_neg hv, henc]
      show ((b0 ||| 128) :: brest).map (fun b => b ^^^ 255) = _
      rw [List.map_cons, hor, hxor]
    rw [hencs, decode_sint_cons, if_neg (by omega), hxor2, hand127, hstl]
    show (if ((127 - b0) :: brest.map (fun b => b ^^^ 255)).length <
        1 + brest.length then Outcome.err Error.Eof
      else _) = _
    rw [if_neg (by simp only [List.length_cons, List.length_map]; omega)]
    have htake : (((127 - b0) :: brest.map (fun b => b ^^^ 255)).take
        (1 + brest.length)) = (127 - b0) :: brest.map (fun b => b ^^^ 255) :=
      List.take_of_length_le (by simp only [List.length_cons, List.length_map]; omega)
    rw [htake, List.map_cons, hxor2, map_compl_compl brest
      (fun x hx => hbytes x (List.mem_cons_of_mem b0 hx))]
    show (match decode_sint_magnitude ((b0 + 128) &&& 127) brest with
      | Outcome.ok (mag, _consumed) => Outcome.ok (-(mag : Int) - 1, 1 + brest.length)
      | Outcome.err e => Outcome.err e
      | Outcome.panicked => Outcome.panicked) = _
    rw [hand127, hdec]
    show Outcome.ok (-((((-(v + 1)).toNat : Nat) : Int)) - 1, 1 + brest.length) = _
    rw [Int.toNat_of_nonneg hmnn]
    simp only [List.length_cons, List.length_map]
    norm_num
    omega

/-! ## Byte-wise lexicographic order infrastructure -/

/-- Big-endian value of a byte string (proof-side helper). -/
def beVal : List Nat → Nat
  | [] => 0
  | a :: s => a * 256 ^ s.length + beVal s

theorem beVal_lt (s : List Nat) (hs : ∀ x ∈ s, x < 256) :
    beVal s < 256 ^ s.length := by
  induction s with
  | nil => simp [beVal]
  | cons a t ih =>
    have ha : a < 256 := hs a (List.mem_cons_self a t)
    have ht := ih fun x hx => hs x (List.mem_cons_of_mem a hx)
    simp only [beVal, List.length_cons]
    calc a * 256 ^ t.length + beVal t
        < a * 256 ^ t.length + 256 ^ t.length := by omega
    _ = (a + 1) * 256 ^ t.length := by ring
    _ ≤ 256 * 256 ^ t.length := Nat.mul_le_mul_right _ (by omega)
    _ = 256 ^ (t.length + 1) := by ring

/-- Strict byte-wise order witnessed at a definite position: a common
prefix followed by a strictly smaller byte, with both lists continuing. -/
inductive ByteLt : List Nat → List Nat → Prop where
  | head : ∀ {a b : Nat} {s t : List Nat}, a < b → ByteLt (a :: s) (b :: t)
  | tail : ∀ {c : Nat} {s t : List Nat}, ByteLt s t → ByteLt (c :: s) (c :: t)

theorem ByteLt.lex {s t : List Nat} (h : ByteLt s t) :
    List.Lex (· < ·) s t := by
  induction h with
  | head hab => exact List.Lex.rel hab
  | tail _ ih => exact List.Lex.cons ih

/-- Adding a constant to both differing heads preserves `ByteLt`. -/
theorem ByteLt.addHead {a b k : Nat} {s t : List Nat}
    (h : ByteLt (a :: s) (b :: t)) : ByteLt ((a + k) :: s) ((b + k) :: t) := by
  cases h with
  | head hab => exact ByteLt.head (by omega)
  | tail hst => exact ByteLt.tail hst

/-- Bit-complementing every byte reverses a strict byte-wise order. -/
theorem ByteLt.compl : ∀ {s t : List Nat}, ByteLt s t →
    (∀ x ∈ s, x < 256) → (∀ x ∈ t, x < 256) →
    ByteLt (t.map fun b => b ^^^ 255) (s.map fun b => b ^^^ 255) := by
  intro s t h
  induction h with
  | head hab =>
    rename_i a b s' t'
    intro hs ht
    simp only [List.map_cons]
    have ha := (compl_byte_facts a (hs a (List.mem_cons_self a s'))).1
    have hb := (compl_byte_facts b (ht b (List.mem_cons_self b t'))).1
    have hblt := ht b (List.mem_cons_self b t')
    rw [ha, hb]
    exact ByteLt.head (by omega)
  | tail hst ih =>
    rename_i c s' t'
    intro hs ht
    simp only [List.map_cons]
    exact ByteLt.tail (ih (fun x hx => hs x (List.mem_cons_of_mem c hx))
      (fun x hx => ht x (List.mem_cons_of_mem c hx)))

/-- Equal-length byte strings compare byte-wise exactly as their
big-endian values. -/
theorem byteLt_of_beVal : ∀ (s t : List Nat), s.length = t.length →
    (∀ x ∈ s, x < 256) → (∀ x ∈ t, x < 256) → beVal s < beVal t →
    ByteLt s t
  | [], [], _, _, _, h => absurd h (by simp [beVal])
  | [], _ :: _, hlen, _, _, _ => by simp at hlen
  | _ :: _, [], hlen, _, _, _ => by simp at hlen
  | a :: s, b :: t, hlen, hs, ht, h => by
    have hlen' : s.length = t.length := by simpa using hlen
    rcases Nat.lt_trichotomy a b with hab | hab | hab
    · exact ByteLt.head hab
    · subst hab
      refine ByteLt.tail (byteLt_of_beVal s t hlen'
        (fun x hx => hs x (List.mem_cons_of_mem a hx))
        (fun x hx => ht x (List.mem_cons_of_mem a hx)) ?_)
      simp only [beVal] at h
      rw [hlen'] at h
      omega
    · exfalso
      have hbt := beVal_lt t fun x hx => ht x (List.mem_cons_of_mem b hx)
      simp only [beVal] at h
      rw [hlen'] at h
      have h1 : b * 256 ^ t.length + beVal t < (b + 1) * 256 ^ t.length := by
        have : (b + 1) * 256 ^ t.length = b * 256 ^ t.length + 256 ^ t.length := by
          ring
        omega
      have h2 : (b + 1) * 256 ^ t.length ≤ a * 256 ^ t.length :=
        Nat.mul_le_mul_right _ (by omega)
      omega

/-- Big-endian value of the byte tail. -/
theorem beVal_write_be_tail (data : Nat) : ∀ n, n ≤ 16 →
    beVal (write_be_tail data n) = data % 2 ^ (8 * n) := by
  intro n
  induction n with
  | zero =>
    intro _
    rw [write_be_tail_zero]
    simp [beVal, Nat.mod_one]
  | succ n ih =>
    intro hn
    rw [write_be_tail_succ data n (by omega)]
    simp only [beVal, write_be_tail_length]
    rw [ih (by omega), mod_two_pow_succ_byte data n, Nat.shiftRight_eq_div_pow,
      show (256 : Nat) ^ n = 2 ^ (8 * n) by
        rw [show (256 : Nat) = 2 ^ 8 by norm_num, ← pow_mul]]

/-- Big-endian value of a header byte followed by the byte tail. -/
theorem beVal_cons_tail (B data l : Nat) (hl : l ≤ 16) :
    beVal (B :: write_be_tail data l) =
      B * 2 ^ (8 * l) + data % 2 ^ (8 * l) := by
  simp only [beVal, write_be_tail_length]
  rw [beVal_write_be_tail data l hl,
    show (256 : Nat) ^ l = 2 ^ (8 * l) by
      rw [show (256 : Nat) = 2 ^ 8 by norm_num, ← pow_mul]]

/-- Big-endian value of a header-with-top-bits byte followed by the tail:
the header data bits recombine with the tail into `data` itself. -/
theorem beVal_top_cons_tail (Q data l : Nat) (hl : l ≤ 16) :
    beVal ((Q + data >>> (8 * l)) :: write_be_tail data l) =
      Q * 2 ^ (8 * l) + data := by
  rw [beVal_cons_tail _ data l hl]
  calc (Q + data >>> (8 * l)) * 2 ^ (8 * l) + data % 2 ^ (8 * l)
      = Q * 2 ^ (8 * l) +
        (data >>> (8 * l) * 2 ^ (8 * l) + data % 2 ^ (8 * l)) := by ring
  _ = Q * 2 ^ (8 * l) + data := by rw [top_mul_add_mod]

/-! ## Unsigned order preservation -/

theorem beVal_cons (a : Nat) (s : List Nat) :
    beVal (a :: s) = a * 256 ^ s.length + beVal s := rfl

/-- Top data bits of a level are below their bit budget. -/
theorem top_lt_of_data_lt {data W l : Nat} (h : data < 2 ^ W * 2 ^ (8 * l)) :
    data >>> (8 * l) < 2 ^ W := by
  rw [Nat.shiftRight_eq_div_pow]
  exact Nat.div_lt_of_lt_mul (by rw [Nat.mul_comm] at h; exact h)

theorem encode_uint_byteLt_aux (v w lv lw dv dw : Nat)
    (hv : v < 2 ^ 128) (hw : w < 2 ^ 128) (hvw : v < w)
    (hlv : lv = find_level v UNSIGNED_OFFSETS)
    (hdv : dv = v - UNSIGNED_OFFSETS.getD lv 0)
    (hlw : lw = find_level w UNSIGNED_OFFSETS)
    (hdw : dw = w - UNSIGNED_OFFSETS.getD lw 0) :
    ByteLt (encode_uint v) (encode_uint w) := by
  obtain ⟨hsumv, hlev, hlowv, hmidv, hhighv⟩ :=
    encode_uint_struct v hv lv dv hlv hdv
  obtain ⟨hsumw, hlew, hloww, hmidw, hhighw⟩ :=
    encode_uint_struct w hw lw dw hlw hdw
  have hmono : lv ≤ lw := by
    by_contra hcon
    push_neg at hcon
    obtain ⟨_, _, hhiw⟩ := find_level_unsigned w
    rw [← hlw] at hhiw
    have h1 : w < UNSIGNED_OFFSETS.getD (lw + 1) 0 := hhiw (by omega)
    have h2 : UNSIGNED_OFFSETS.getD (lw + 1) 0 ≤ UNSIGNED_OFFSETS.getD lv 0 :=
      unsigned_offsets_mono (lw + 1) (by omega) lv (by omega) (by omega)
    omega
  rcases Nat.eq_or_lt_of_le hmono with heq | hcross
  · -- same level: equal length, big-endian values decide
    subst heq
    have hdvw : dv < dw := by omega
    rcases Nat.lt_or_ge lv 8 with h7 | h8
    · obtain ⟨hdatav, hencv⟩ := hlowv (by omega)
      obtain ⟨hdataw, hencw⟩ := hloww (by omega)
      have hdivv := top_lt_of_data_lt hdatav
      have hdivw := top_lt_of_data_lt hdataw
      obtain ⟨_, hltv, _, _⟩ :=
        unsigned_header_facts lv (by omega) (dv >>> (8 * lv)) hdivv
      obtain ⟨_, hltw, _, _⟩ :=
        unsigned_header_facts lv (by omega) (dw >>> (8 * lv)) hdivw
      rw [hencv, hencw]
      refine byteLt_of_beVal _ _ ?_ ?_ ?_ ?_
      · simp only [List.length_cons, write_be_tail_length]
      · intro x hx
        rcases List.mem_cons.mp hx with h | h
        · omega
        · exact write_be_tail_mem_lt dv lv x h
      · intro x hx
        rcases List.mem_cons.mp hx with h | h
        · omega
        · exact write_be_tail_mem_lt dw lv x h
      · rw [beVal_top_cons_tail _ _ _ (by omega),
          beVal_top_cons_tail _ _ _ (by omega)]
        omega
    rcases Nat.lt_or_ge lv 16 with h15 | h16
    · obtain ⟨hdatav, hencv⟩ := hmidv (by omega) (by omega)
      obtain ⟨hdataw, hencw⟩ := hmidw (by omega) (by omega)
      have hdivv := top_lt_of_data_lt hdatav
      have hdivw := top_lt_of_data_lt hdataw
      obtain ⟨_, hltv, _, _⟩ :=
        unsigned_header_facts (lv - 8) (by omega) (dv >>> (8 * lv)) hdivv
      obtain ⟨_, hltw, _, _⟩ :=
        unsigned_header_facts (lv - 8) (by omega) (dw >>> (8 * lv)) hdivw
      rw [hencv, hencw]
      refine byteLt_of_beVal _ _ ?_ ?_ ?_ ?_
      · simp only [List.length_cons, write_be_tail_length]
      · intro x hx
        rcases List.mem_cons.mp hx with h | h
        · omega
        rcases List.mem_cons.mp h with h2 | h2
        · omega
        · exact write_be_tail_mem_lt dv lv x h2
      · intro x hx
        rcases List.mem_cons.mp hx with h | h
        · omega
        rcases List.mem_cons.mp h with h2 | h2
        · omega
        · exact write_be_tail_mem_lt dw lv x h2
      · rw [beVal_cons, beVal_top_cons_tail _ _ _ (by omega),
          beVal_cons, beVal_top_cons_tail _ _ _ (by omega)]
        simp only [List.length_cons, write_be_tail_length]
        omega
    · have h16' : lv = 16 := by omega
      obtain ⟨hdatav, hencv⟩ := hhighv h16'
      obtain ⟨hdataw, hencw⟩ := hhighw h16'
      rw [hencv, hencw]
      refine byteLt_of_beVal _ _ ?_ ?_ ?_ ?_
      · simp only [List.length_cons, write_be_tail_length]
      · intro x hx
        rcases List.mem_cons.mp hx with h | h
        · omega
        rcases List.mem_cons.mp h with h2 | h2
        · omega
        · exact write_be_tail_mem_lt dv 16 x h2
      · intro x hx
        rcases List.mem_cons.mp hx with h | h
        · omega
        rcases List.mem_cons.mp h with h2 | h2
        · omega
        · exact write_be_tail_mem_lt dw 16 x h2
      · rw [beVal_cons, beVal_cons_tail _ _ _ (by omega),
          beVal_cons, beVal_cons_tail _ _ _ (by omega)]
        simp only [List.length_cons, write_be_tail_length]
        have hmv : dv % 2 ^ (8 * 16) = dv := Nat.mod_eq_of_lt (by norm_num; omega)
        have hmw : dw % 2 ^ (8 * 16) = dw := Nat.mod_eq_of_lt (by norm_num; omega)
        rw [hmv, hmw]
        omega
  · -- different levels: decided at the first differing header byte
    rcases Nat.lt_or_ge lv 8 with hv7 | hv8
    · -- v has a single-header shape
      obtain ⟨hdatav, hencv⟩ := hlowv (by omega)
      have hdivv := top_lt_of_data_lt hdatav
      have hQv := leading_ones_byte_eq lv (by omega)
      have hpv : (2 : Nat) ^ (8 - lv) = 2 ^ (7 - lv) * 2 := by
        rw [show 8 - lv = (7 - lv) + 1 by omega, pow_succ]
      have hbv : (2 : Nat) ^ (7 - lv) ≤ 128 := by
        calc (2 : Nat) ^ (7 - lv) ≤ 2 ^ 7 :=
              Nat.pow_le_pow_right (by omega) (by omega)
        _ = 128 := by norm_num
      have hheadv : leading_ones_byte lv + dv >>> (8 * lv) ≤ 255 - 2 ^ (7 - lv) := by
        omega
      rcases Nat.lt_or_ge lw 8 with hw7 | hw8
      · -- w also single-header: strictly larger prefix
        obtain ⟨hdataw, hencw⟩ := hloww (by omega)
        have hQw := leading_ones_byte_eq lw (by omega)
        have hpow : (2 : Nat) ^ (8 - lw) ≤ 2 ^ (7 - lv) :=
          Nat.pow_le_pow_right (by omega) (by omega)
        have hbw : (1 : Nat) ≤ 2 ^ (8 - lw) := Nat.one_le_two_pow
        rw [hencv, hencw]
        have h1 : leading_ones_byte lv + dv >>> (8 * lv) <
            leading_ones_byte lw := by omega
        exact ByteLt.head (Nat.lt_of_lt_of_le h1 (Nat.le_add_right _ _))
      rcases Nat.lt_or_ge lw 16 with hw15 | hw16
      · obtain ⟨_, hencw⟩ := hmidw (by omega) (by omega)
        rw [hencv, hencw]
        have hone : (1 : Nat) ≤ 2 ^ (7 - lv) := Nat.one_le_two_pow
        exact ByteLt.head (by omega)
      · obtain ⟨_, hencw⟩ := hhighw (by omega)
        rw [hencv, hencw]
        have hone : (1 : Nat) ≤ 2 ^ (7 - lv) := Nat.one_le_two_pow
        exact ByteLt.head (by omega)
    · -- v has the 0xFF-prefixed shape (8 ≤ lv ≤ 15)
      obtain ⟨hdatav, hencv⟩ := hmidv (by omega) (by omega)
      have hdivv := top_lt_of_data_lt hdatav
      have hQv := leading_ones_byte_eq (lv - 8) (by omega)
      have hpv : (2 : Nat) ^ (8 - (lv - 8)) = 2 ^ (7 - (lv - 8)) * 2 := by
        rw [show 8 - (lv - 8) = (7 - (lv - 8)) + 1 by omega, pow_succ]
      have hbv : (2 : Nat) ^ (7 - (lv - 8)) ≤ 128 := by
        calc (2 : Nat) ^ (7 - (lv - 8)) ≤ 2 ^ 7 :=
              Nat.pow_le_pow_right (by omega) (by omega)
        _ = 128 := by norm_num
      have hheadv : leading_ones_byte (lv - 8) + dv >>> (8 * lv) ≤
          255 - 2 ^ (7 - (lv - 8)) := by
        omega
      rcases Nat.lt_or_ge lw 16 with hw15 | hw16
      · obtain ⟨_, hencw⟩ := hmidw (by omega) (by omega)
        have hQw := leading_ones_byte_eq (lw - 8) (by omega)
        have hpow : (2 : Nat) ^ (8 - (lw - 8)) ≤ 2 ^ (7 - (lv - 8)) :=
          Nat.pow_le_pow_right (by omega) (by omega)
        have hbw : (1 : Nat) ≤ 2 ^ (8 - (lw - 8)) := Nat.one_le_two_pow
        rw [hencv, hencw]
        have h1 : leading_ones_byte (lv - 8) + dv >>> (8 * lv) <
            leading_ones_byte (lw - 8) := by omega
        exact ByteLt.tail (ByteLt.head (Nat.lt_of_lt_of_le h1 (Nat.le_add_right _ _)))
      · obtain ⟨_, hencw⟩ := hhighw (by omega)
        rw [hencv, hencw]
        have hone : (1 : Nat) ≤ 2 ^ (7 - (lv - 8)) := Nat.one_le_two_pow
        exact ByteLt.tail (ByteLt.head (by omega))

/-- Strict order preservation of the unsigned varint encoding. -/
theorem encode_uint_byteLt (v w : Nat) (hvw : v < w) (hw : w < 2 ^ 128) :
    ByteLt (encode_uint v) (encode_uint w) :=
  encode_uint_byteLt_aux v w _ _ _ _ (lt_trans hvw hw) hw hvw rfl rfl rfl rfl

/-! ## Signed order preservation -/

theorem encode_sint_magnitude_byteLt_aux (v w lv lw dv dw : Nat)
    (hv : v < 2 ^ 127) (hw : w < 2 ^ 127) (hvw : v < w)
    (hlv : lv = find_level v SIGNED_OFFSETS)
    (hdv : dv = v - SIGNED_OFFSETS.getD lv 0)
    (hlw : lw = find_level w SIGNED_OFFSETS)
    (hdw : dw = w - SIGNED_OFFSETS.getD lw 0) :
    ByteLt (encode_sint_magnitude v) (encode_sint_magnitude w) := by
  obtain ⟨hsumv, hlev, hlowv, hmidv, hhighv⟩ :=
    encode_sint_magnitude_struct v hv lv dv hlv hdv
  obtain ⟨hsumw, hlew, hloww, hmidw, hhighw⟩ :=
    encode_sint_magnitude_struct w hw lw dw hlw hdw
  have hmono : lv ≤ lw := by
    by_contra hcon
    push_neg at hcon
    obtain ⟨_, _, hhiw⟩ := find_level_signed w
    rw [← hlw] at hhiw
    have h1 : w < SIGNED_OFFSETS.getD (lw + 1) 0 := hhiw (by omega)
    have h2 : SIGNED_OFFSETS.getD (lw + 1) 0 ≤ SIGNED_OFFSETS.getD lv 0 :=
      signed_offsets_mono (lw + 1) (by omega) lv (by omega) (by omega)
    omega
  rcases Nat.eq_or_lt_of_le hmono with heq | hcross
  · -- same level
    subst heq
    have hdvw : dv < dw := by omega
    rcases Nat.lt_or_ge lv 7 with h6 | h7
    · obtain ⟨hdatav, hencv⟩ := hlowv (by omega)
      obtain ⟨hdataw, hencw⟩ := hloww (by omega)
      have hdivv := top_lt_of_data_lt hdatav
      have hdivw := top_lt_of_data_lt hdataw
      obtain ⟨_, hltv, _, _⟩ :=
        signed_header_facts lv (by omega) (dv >>> (8 * lv)) hdivv
      obtain ⟨_, hltw, _, _⟩ :=
        signed_header_facts lv (by omega) (dw >>> (8 * lv)) hdivw
      rw [hencv, hencw]
      refine byteLt_of_beVal _ _ ?_ ?_ ?_ ?_
      · simp only [List.length_cons, write_be_tail_length]
      · intro x hx
        rcases List.mem_cons.mp hx with h | h
        · omega
        · exact write_be_tail_mem_lt dv lv x h
      · intro x hx
        rcases List.mem_cons.mp hx with h | h
        · omega
        · exact write_be_tail_mem_lt dw lv x h
      · rw [beVal_top_cons_tail _ _ _ (by omega),
          beVal_top_cons_tail _ _ _ (by omega)]
        omega
    rcases Nat.lt_or_ge lv 15 with h14 | h15
    · obtain ⟨hdatav, hencv⟩ := hmidv (by omega) (by omega)
      obtain ⟨hdataw, hencw⟩ := hmidw (by omega) (by omega)
      have hdivv := top_lt_of_data_lt hdatav
      have hdivw := top_lt_of_data_lt hdataw
      obtain ⟨_, hltv, _, _⟩ :=
        unsigned_header_facts (lv - 7) (by omega) (dv >>> (8 * lv)) hdivv
      obtain ⟨_, hltw, _, _⟩ :=
        unsigned_header_facts (lv - 7) (by omega) (dw >>> (8 * lv)) hdivw
      rw [hencv, hencw]
      refine byteLt_of_beVal _ _ ?_ ?_ ?_ ?_
      · simp only [List.length_cons, write_be_tail_length]
      · intro x hx
        rcases List.mem_cons.mp hx with h | h
        · omega
        rcases List.mem_cons.mp h with h2 | h2
        · omega
        · exact write_be_tail_mem_lt dv lv x h2
      · intro x hx
        rcases List.mem_cons.mp hx with h | h
        · omega
        rcases List.mem_cons.mp h with h2 | h2
        · omega
        · exact write_be_tail_mem_lt dw lv x h2
      · rw [beVal_cons, beVal_top_cons_tail _ _ _ (by omega),
          beVal_cons, beVal_top_cons_tail _ _ _ (by omega)]
        simp only [List.length_cons, write_be_tail_length]
        omega
    · have h15' : lv = 15 := by omega
      obtain ⟨hdatav, hencv⟩ := hhighv h15'
      obtain ⟨hdataw, hencw⟩ := hhighw h15'
      have hdivv : dv >>> 120 < 2 ^ 7 := by
        rw [Nat.shiftRight_eq_div_pow]
        exact Nat.div_lt_of_lt_mul
          (by calc dv < 2 ^ 127 := hdatav
              _ = 2 ^ 120 * 2 ^ 7 := by norm_num)
      have hdivw : dw >>> 120 < 2 ^ 7 := by
        rw [Nat.shiftRight_eq_div_pow]
        exact Nat.div_lt_of_lt_mul
          (by calc dw < 2 ^ 127 := hdataw
              _ = 2 ^ 120 * 2 ^ 7 := by norm_num)
      rw [hencv, hencw]
      refine byteLt_of_beVal _ _ ?_ ?_ ?_ ?_
      · simp only [List.length_cons, write_be_tail_length]
      · intro x hx
        rcases List.mem_cons.mp hx with h | h
        · omega
        rcases List.mem_cons.mp h with h2 | h2
        · omega
        rcases List.mem_cons.mp h2 with h3 | h3
        · omega
        · exact write_be_tail_mem_lt dv 15 x h3
      · intro x hx
        rcases List.mem_cons.mp hx with h | h
        · omega
        rcases List.mem_cons.mp h with h2 | h2
        · omega
        rcases List.mem_cons.mp h2 with h3 | h3
        · omega
        · exact write_be_tail_mem_lt dw 15 x h3
      · rw [beVal_cons, beVal_cons, beVal_cons_tail _ _ _ (by omega),
          beVal_cons, beVal_cons, beVal_cons_tail _ _ _ (by omega)]
        simp only [List.length_cons, write_be_tail_length]
        rw [show (8 : Nat) * 15 = 120 from rfl, top_mul_add_mod dv 120,
          top_mul_add_mod dw 120]
        omega
  · -- different levels
    rcases Nat.lt_or_ge lv 7 with hv6 | hv7
    · obtain ⟨hdatav, hencv⟩ := hlowv (by omega)
      have hdivv := top_lt_of_data_lt hdatav
      have hQv := leading_ones_7bit_eq lv (by omega)
      have hpv : (2 : Nat) ^ (7 - lv) = 2 ^ (6 - lv) * 2 := by
        rw [show 7 - lv = (6 - lv) + 1 by omega, pow_succ]
      have hbv : (2 : Nat) ^ (6 - lv) ≤ 64 := by
        calc (2 : Nat) ^ (6 - lv) ≤ 2 ^ 6 :=
              Nat.pow_le_pow_right (by omega) (by omega)
        _ = 64 := by norm_num
      have hheadv : leading_ones_7bit lv + dv >>> (8 * lv) ≤
          127 - 2 ^ (6 - lv) := by omega
      have honev : (1 : Nat) ≤ 2 ^ (6 - lv) := Nat.one_le_two_pow
      rcases Nat.lt_or_ge lw 7 with hw6 | hw7
      · obtain ⟨_, hencw⟩ := hloww (by omega)
        have hQw := leading_ones_7bit_eq lw (by omega)
        have hpow : (2 : Nat) ^ (7 - lw) ≤ 2 ^ (6 - lv) :=
          Nat.pow_le_pow_right (by omega) (by omega)
        rw [hencv, hencw]
        have h1 : leading_ones_7bit lv + dv >>> (8 * lv) <
            leading_ones_7bit lw := by omega
        exact ByteLt.head (Nat.lt_of_lt_of_le h1 (Nat.le_add_right _ _))
      rcases Nat.lt_or_ge lw 15 with hw14 | hw15
      · obtain ⟨_, hencw⟩ := hmidw (by omega) (by omega)
        rw [hencv, hencw]
        exact ByteLt.head (by omega)
      · obtain ⟨_, hencw⟩ := hhighw (by omega)
        rw [hencv, hencw]
        exact ByteLt.head (by omega)
    · -- 7 ≤ lv < lw, so lv ≤ 14
      obtain ⟨hdatav, hencv⟩ := hmidv (by omega) (by omega)
      have hdivv := top_lt_of_data_lt hdatav
      have hQv := leading_ones_byte_eq (lv - 7) (by omega)
      have hpv : (2 : Nat) ^ (8 - (lv - 7)) = 2 ^ (7 - (lv - 7)) * 2 := by
        rw [show 8 - (lv - 7) = (7 - (lv - 7)) + 1 by omega, pow_succ]
      have hbv : (2 : Nat) ^ (7 - (lv - 7)) ≤ 128 := by
        calc (2 : Nat) ^ (7 - (lv - 7)) ≤ 2 ^ 7 :=
              Nat.pow_le_pow_right (by omega) (by omega)
        _ = 128 := by norm_num
      have hheadv : leading_ones_byte (lv - 7) + dv >>> (8 * lv) ≤
          255 - 2 ^ (7 - (lv - 7)) := by omega
      have honev : (1 : Nat) ≤ 2 ^ (7 - (lv - 7)) := Nat.one_le_two_pow
      rcases Nat.lt_or_ge lw 15 with hw14 | hw15
      · obtain ⟨_, hencw⟩ := hmidw (by omega) (by omega)
        have hQw := leading_ones_byte_eq (lw - 7) (by omega)
        have hpow : (2 : Nat) ^ (8 - (lw - 7)) ≤ 2 ^ (7 - (lv - 7)) :=
          Nat.pow_le_pow_right (by omega) (by omega)
        have hbw : (1 : Nat) ≤ 2 ^ (8 - (lw - 7)) := Nat.one_le_two_pow
        rw [hencv, hencw]
        have h1 : leading_ones_byte (lv - 7) + dv >>> (8 * lv) <
            leading_ones_byte (lw - 7) := by omega
        exact ByteLt.tail (ByteLt.head (Nat.lt_of_lt_of_le h1 (Nat.le_add_right _ _)))
      · obtain ⟨_, hencw⟩ := hhighw (by omega)
        rw [hencv, hencw]
        exact ByteLt.tail (ByteLt.head (by omega))

/-- Strict order preservation of the signed magnitude scheme. -/
theorem encode_sint_magnitude_byteLt (v w : Nat) (hvw : v < w)
    (hw : w < 2 ^ 127) :
    ByteLt (encode_sint_magnitude v) (encode_sint_magnitude w) :=
  encode_sint_magnitude_byteLt_aux v w _ _ _ _ (lt_trans hvw hw) hw hvw
    rfl rfl rfl rfl

/-- Strict order preservation of the full signed varint encoding. -/
theorem encode_sint_byteLt (v w : Int) (hvw : v < w)
    (hlo : -(2 ^ 127) ≤ v) (hhi : w < 2 ^ 127) :
    ByteLt (encode_sint v) (encode_sint w) := by
  have h2 : ((2 : Int) ^ 127) = 170141183460469231731687303715884105728 := by
    norm_num
  have h2n : ((2 : Nat) ^ 127) = 170141183460469231731687303715884105728 := by
    norm_num
  by_cases hv : 0 ≤ v
  · -- both nonnegative
    have hw0 : 0 ≤ w := by omega
    have hmv : v.toNat < 2 ^ 127 := by omega
    have hmw : w.toNat < 2 ^ 127 := by omega
    obtain ⟨bv, sv, hencv, hbv, _, _, _⟩ := encode_sint_magnitude_spec v.toNat hmv
    obtain ⟨bw, sw, hencw, hbw, _, _, _⟩ := encode_sint_magnitude_spec w.toNat hmw
    have horv := (sign_bit_facts bv hbv).1
    have horw := (sign_bit_facts bw hbw).1
    have hencsv : encode_sint v = (bv + 128) :: sv := by
      rw [encode_sint.eq_def, if_pos hv, hencv, ← horv]
    have hencsw : encode_sint w = (bw + 128) :: sw := by
      rw [encode_sint.eq_def, if_pos hw0, hencw, ← horw]
    have hmag : ByteLt (bv :: sv) (bw :: sw) := by
      rw [← hencv, ← hencw]
      exact encode_sint_magnitude_byteLt v.toNat w.toNat (by omega) hmw
    rw [hencsv, hencsw]
    exact hmag.addHead
  · by_cases hw0 : 0 ≤ w
    · -- v negative, w nonnegative: sign bit decides
      have hmagv : (0 : Int) ≤ -(v + 1) := by omega
      have hmv : (-(v + 1)).toNat < 2 ^ 127 := by omega
      have hmw : w.toNat < 2 ^ 127 := by omega
      obtain ⟨bv, sv, hencv, hbv, _, _, _⟩ :=
        encode_sint_magnitude_spec (-(v + 1)).toNat hmv
      obtain ⟨bw, sw, hencw, hbw, _, _, _⟩ := encode_sint_magnitude_spec w.toNat hmw
      obtain ⟨horv, _, _, hxorv, _, _, _⟩ := sign_bit_facts bv hbv
      have horw := (sign_bit_facts bw hbw).1
      have hencsv : encode_sint v = (127 - bv) :: sv.map (fun b => b ^^^ 255) := by
        simp only [encode_sint]
        rw [if_neg hv, hencv]
        show ((bv ||| 128) :: sv).map (fun b => b ^^^ 255) = _
        rw [List.map_cons, horv, hxorv]
      have hencsw : encode_sint w = (bw + 128) :: sw := by
        rw [encode_sint.eq_def, if_pos hw0, hencw, ← horw]
      rw [hencsv, hencsw]
      exact ByteLt.head (by omega)
    · -- both negative: complement reverses the magnitude order
      have hmagv : (0 : Int) ≤ -(v + 1) := by omega
      have hmagw : (0 : Int) ≤ -(w + 1) := by omega
      have hmv : (-(v + 1)).toNat < 2 ^ 127 := by omega
      have hmw : (-(w + 1)).toNat < 2 ^ 127 := by omega
      obtain ⟨bv, sv, hencv, hbv, hbytesv, _, _⟩ :=
        encode_sint_magnitude_spec (-(v + 1)).toNat hmv
      obtain ⟨bw, sw, hencw, hbw, hbytesw, _, _⟩ :=
        encode_sint_magnitude_spec (-(w + 1)).toNat hmw
      obtain ⟨horv, _, _, hxorv, _, _, _⟩ := sign_bit_facts bv hbv
      obtain ⟨horw, _, _, hxorw, _, _, _⟩ := sign_bit_facts bw hbw
      have hencsv : encode_sint v = ((bv + 128) :: sv).map (fun b => b ^^^ 255) := by
        simp only [encode_sint]
        rw [if_neg hv, hencv]
        show ((bv ||| 128) :: sv).map (fun b => b ^^^ 255) = _
        rw [horv]
      have hencsw : encode_sint w = ((bw + 128) :: sw).map (fun b => b ^^^ 255) := by
        simp only [encode_sint]
        rw [if_neg hw0, hencw]
        show ((bw ||| 128) :: sw).map (fun b => b ^^^ 255) = _
        rw [horw]
      have hmag : ByteLt (bw :: sw) (bv :: sv) := by
        rw [← hencv, ← hencw]
        exact encode_sint_magnitude_byteLt (-(w + 1)).toNat (-(v + 1)).toNat
          (by omega) hmv
      have hlift : ByteLt ((bw + 128) :: sw) ((bv + 128) :: sv) := hmag.addHead
      have hcompl := hlift.compl
        (fun x hx => by
          rcases List.mem_cons.mp hx with h | h
          · omega
          · exact Nat.lt_of_lt_of_le (hbytesw x (List.mem_cons_of_mem bw h))
              (le_refl _))
        (fun x hx => by
          rcases List.mem_cons.mp hx with h | h
          · omega
          · exact Nat.lt_of_lt_of_le (hbytesv x (List.mem_cons_of_mem bv h))
              (le_refl _))
      rw [hencsv, hencsw]
      exact hcompl

/-! ## Encoding length bounds -/

theorem encode_uint_length_bounds (v : Nat) (hv : v < 2 ^ 128) :
    1 ≤ (encode_uint v).length ∧ (encode_uint v).length ≤ 18 := by
  obtain ⟨_, hle, hlow, hmid, hhigh⟩ :=
    encode_uint_struct v hv (find_level v UNSIGNED_OFFSETS)
      (v - UNSIGNED_OFFSETS.getD (find_level v UNSIGNED_OFFSETS) 0) rfl rfl
  rcases Nat.lt_or_ge (find_level v UNSIGNED_OFFSETS) 8 with h7 | h8
  · obtain ⟨_, henc⟩ := hlow (by omega)
    rw [henc]
    simp only [List.length_cons, write_be_tail_length]
    omega
  rcases Nat.lt_or_ge (find_level v UNSIGNED_OFFSETS) 16 with h15 | h16
  · obtain ⟨_, henc⟩ := hmid (by omega) (by omega)
    rw [henc]
    simp only [List.length_cons, write_be_tail_length]
    omega
  · obtain ⟨_, henc⟩ := hhigh (by omega)
    rw [henc]
    simp only [List.length_cons, write_be_tail_length]
    omega

theorem encode_sint_magnitude_length_bounds (m : Nat) (hm : m < 2 ^ 127) :
    1 ≤ (encode_sint_magnitude m).length ∧
      (encode_sint_magnitude m).length ≤ 18 := by
  obtain ⟨_, hle, hlow, hmid, hhigh⟩ :=
    encode_sint_magnitude_struct m hm (find_level m SIGNED_OFFSETS)
      (m - SIGNED_OFFSETS.getD (find_level m SIGNED_OFFSETS) 0) rfl rfl
  rcases Nat.lt_or_ge (find_level m SIGNED_OFFSETS) 7 with h6 | h7
  · obtain ⟨_, henc⟩ := hlow (by omega)
    rw [henc]
    simp only [List.length_cons, write_be_tail_length]
    omega
  rcases Nat.lt_or_ge (find_level m SIGNED_OFFSETS) 15 with h14 | h15
  · obtain ⟨_, henc⟩ := hmid (by omega) (by omega)
    rw [henc]
    simp only [List.length_cons, write_be_tail_length]
    omega
  · obtain ⟨_, henc⟩ := hhigh (by omega)
    rw [henc]
    simp only [List.length_cons, write_be_tail_length]
    omega

/-- The signed encoding has the same length as its magnitude encoding:
the sign bit is set in place and the complement is a `map`. -/
theorem encode_sint_length_eq_magnitude (v : Int) (hlo : -(2 ^ 127) ≤ v)
    (hhi : v < 2 ^ 127) :
    (encode_sint v).length =
      (encode_sint_magnitude (if 0 ≤ v then v.toNat else (-(v + 1)).toNat)).length := by
  have h2n : ((2 : Nat) ^ 127) = 170141183460469231731687303715884105728 := by
    norm_num
  have h2 : ((2 : Int) ^ 127) = 170141183460469231731687303715884105728 := by
    norm_num
  by_cases hv : 0 ≤ v
  · rw [if_pos hv]
    have hm : v.toNat < 2 ^ 127 := by omega
    obtain ⟨b0, brest, henc, hb0, _, _, _⟩ := encode_sint_magnitude_spec v.toNat hm
    have hor := (sign_bit_facts b0 hb0).1
    have hencs : encode_sint v = (b0 + 128) :: brest := by
      rw [encode_sint.eq_def, if_pos hv, henc, ← hor]
    rw [hencs, henc]
    simp
  · rw [if_neg hv]
    have hm : (-(v + 1)).toNat < 2 ^ 127 := by omega
    obtain ⟨b0, brest, henc, hb0, _, _, _⟩ :=
      encode_sint_magnitude_spec (-(v + 1)).toNat hm
    obtain ⟨hor, _, _, hxor, _, _, _⟩ := sign_bit_facts b0 hb0
    have hencs : encode_sint v =
        (127 - b0) :: brest.map (fun b => b ^^^ 255) := by
      simp only [encode_sint]
      rw [if_neg hv, henc]
      show ((b0 ||| 128) :: brest).map (fun b => b ^^^ 255) = _
      rw [List.map_cons, hor, hxor]
    rw [hencs, henc]
    simp

/-! ## Sentinel framing (ser.rs / de.rs) -/

/-- Unfolding of `deserialize_with_sentinel` on a nonempty input. -/
theorem deserialize_with_sentinel_cons (S byte : Nat) (rest : List Nat) :
    deserialize_with_sentinel S (byte :: rest) =
      if byte = S then
        match rest with
        | [] => .panicked
        | next :: rest2 =>
          if next = 0 then .ok ([], rest2)
          else if next = 1 then
            match deserialize_with_sentinel S rest2 with
            | .ok (bytes, rem) => .ok (S :: bytes, rem)
            | .err e => .err e
            | .panicked => .panicked
          else .err (.Message "Invalid encoding")
      else
        match deserialize_with_sentinel S rest with
        | .ok (bytes, rem) => .ok (byte :: bytes, rem)
        | .err e => .err e
        | .panicked => .panicked := by
  rw [deserialize_with_sentinel.eq_def]

/-- Decoding a sentinel-framed encoding recovers the data exactly and
leaves the rest of the input untouched. -/
theorem deserialize_serialize_with_sentinel (S : Nat) :
    ∀ (b r : List Nat),
      deserialize_with_sentinel S (serialize_with_sentinel b S ++ r) =
        .ok (b, r) := by
  intro b
  induction b with
  | nil =>
    intro r
    show deserialize_with_sentinel S (S :: 0 :: r) = .ok ([], r)
    simp [deserialize_with_sentinel_cons]
  | cons x b' ih =>
    intro r
    by_cases hx : x = S
    · have hexp : serialize_with_sentinel (x :: b') S ++ r =
          S :: 1 :: (serialize_with_sentinel b' S ++ r) := by
        simp [serialize_with_sentinel, hx]
      rw [hexp]
      simp [deserialize_with_sentinel_cons, ih r, hx]
    · have hexp : serialize_with_sentinel (x :: b') S ++ r =
          x :: (serialize_with_sentinel b' S ++ r) := by
        simp [serialize_with_sentinel, hx]
      rw [hexp]
      simp [deserialize_with_sentinel_cons, ih r, hx]

/-- A byte other than `0x00`/`0x01` after the sentinel is malformed. -/
theorem deserialize_with_sentinel_reject (S x : Nat) (rest : List Nat)
    (h0 : x ≠ 0) (h1 : x ≠ 1) :
    deserialize_with_sentinel S (S :: x :: rest) =
      .err (.Message "Invalid encoding") := by
  simp [deserialize_with_sentinel_cons, h0, h1]

/-- The framed encoding ends with the terminator `S 0x00`. -/
theorem serialize_with_sentinel_terminator (b : List Nat) (S : Nat) :
    ∃ p, serialize_with_sentinel b S = p ++ [S, 0] :=
  ⟨b.flatMap fun byte => if byte = S then [byte, 0x01] else [byte], rfl⟩

theorem count_escape_pairs_cons_cons (S x y : Nat) (rest : List Nat) :
    count_escape_pairs S (x :: y :: rest) =
      (if x = S ∧ y = 1 then 1 else 0) + count_escape_pairs S (y :: rest) := by
  rw [count_escape_pairs]

/-- The encoding contains the escape pair `S 0x01` exactly once per
occurrence of `S` in the data (the sentinels are `0x00` and `0x7F`,
so `S ≠ 1`). -/
theorem count_escape_pairs_serialize (S : Nat) (hS : S ≠ 1) :
    ∀ b : List Nat,
      count_escape_pairs S (serialize_with_sentinel b S) = b.count S := by
  intro b
  induction b with
  | nil =>
    show count_escape_pairs S (S :: 0 :: []) = _
    rw [count_escape_pairs_cons_cons]
    simp [count_escape_pairs]
  | cons x b' ih =>
    rcases hsws : serialize_with_sentinel b' S with _ | ⟨t0, rest'⟩
    · exfalso
      obtain ⟨p, hp⟩ := serialize_with_sentinel_terminator b' S
      rw [hsws] at hp
      simp at hp
    by_cases hx : x = S
    · have hexp : serialize_with_sentinel (x :: b') S =
          S :: 1 :: serialize_with_sentinel b' S := by
        simp [serialize_with_sentinel, hx]
      rw [hexp, count_escape_pairs_cons_cons, hsws,
        count_escape_pairs_cons_cons, ← hsws, ih]
      simp [List.count_cons, hx, hS, Ne.symm hS]
      omega
    · have hexp : serialize_with_sentinel (x :: b') S =
          x :: serialize_with_sentinel b' S := by
        simp [serialize_with_sentinel, hx]
      rw [hexp, hsws, count_escape_pairs_cons_cons, ← hsws, ih]
      simp [List.count_cons, hx]

/-! ## FixedBytes (ser.rs / de.rs / fixed_bytes.rs) -/

theorem to_bytes_fixed_bytes_eq (a : List Nat) : to_bytes_fixed_bytes a = a := by
  have hgen : ∀ (l acc : List Nat),
      l.foldl (fun out v => out ++ serialize_u8 true v) acc = acc ++ l := by
    intro l
    induction l with
    | nil => intro acc; simp
    | cons x t ih =>
      intro acc
      show (t.foldl (fun out v => out ++ serialize_u8 true v)
        (acc ++ serialize_u8 true x)) = _
      rw [ih (acc ++ serialize_u8 true x)]
      simp [serialize_u8]
  have := hgen a []
  simpa [to_bytes_fixed_bytes] using this

theorem deserialize_fixed_bytes_exact (a : List Nat) :
    deserialize_fixed_bytes a.length a = .ok (a, []) := by
  induction a with
  | nil => rfl
  | cons x t ih =>
    show deserialize_fixed_bytes (t.length + 1) (x :: t) = _
    rw [deserialize_fixed_bytes]
    simp only [deserialize_u8]
    rw [ih]

/-! ## Claim theorems -/

/-- C1: the claim states `from_bytes(to_bytes(v)) = Ok(v)` for every value
of the supported universe; the code violates it.  Evaluating the code at
the failing input `128u8`: `to_bytes` produces the two-byte varint
`80 00`, while `deserialize_u8` reads a single raw byte, so the top-level
`from_bytes` rejects the leftover byte with `TrailingCharacters` instead
of returning `Ok(128)` — contradicting the crate's own `prop_u8`
round-trip test. -/
theorem c1_code_bug_u8_roundtrip :
    to_bytes_u8 128 = [0x80, 0x00] ∧
    from_bytes_u8 (to_bytes_u8 128) = .err .TrailingCharacters ∧
    from_bytes_u8 (to_bytes_u8 128) ≠ .ok 128 := by decide

/-- C2: for every `u128` value, `decode_uint` inverts `encode_uint` and
consumes exactly the encoding's length; likewise `decode_sint` inverts
`encode_sint` for every `i128` value. -/
theorem c2_varint_roundtrip :
    (∀ v : Nat, v < 2 ^ 128 →
      decode_uint (encode_uint v) = .ok (v, (encode_uint v).length)) ∧
    (∀ v : Int, -(2 ^ 127) ≤ v → v < 2 ^ 127 →
      decode_sint (encode_sint v) = .ok (v, (encode_sint v).length)) :=
  ⟨decode_encode_uint, decode_encode_sint⟩

theorem c2_varint_roundtrip_witness :
    decode_uint (encode_uint 300) = .ok (300, (encode_uint 300).length) ∧
    decode_sint (encode_sint (-300)) = .ok (-300, (encode_sint (-300)).length) :=
  ⟨c2_varint_roundtrip.1 300 (by norm_num),
   c2_varint_roundtrip.2 (-300) (by norm_num) (by norm_num)⟩

/-- C3: `encode_uint` and `encode_sint` are strictly monotone from the
numeric order into byte-wise lexicographic order. -/
theorem c3_varint_order_preservation :
    (∀ v w : Nat, v < w → w < 2 ^ 128 →
      List.Lex (· < ·) (encode_uint v) (encode_uint w)) ∧
    (∀ v w : Int, v < w → -(2 ^ 127) ≤ v → w < 2 ^ 127 →
      List.Lex (· < ·) (encode_sint v) (encode_sint w)) :=
  ⟨fun v w hvw hw => (encode_uint_byteLt v w hvw hw).lex,
   fun v w hvw hlo hhi => (encode_sint_byteLt v w hvw hlo hhi).lex⟩

theorem c3_varint_order_preservation_witness :
    List.Lex (· < ·) (encode_uint 1) (encode_uint 2) ∧
    List.Lex (· < ·) (encode_sint (-1)) (encode_sint 1) :=
  ⟨c3_varint_order_preservation.1 1 2 (by norm_num) (by norm_num),
   c3_varint_order_preservation.2 (-1) 1 (by norm_num) (by norm_num) (by norm_num)⟩

/-- C4 counterexample: the claim says the top-level decode does not reject
trailing bytes; but `from_bytes` in `de.rs` returns `TrailingCharacters`
whenever input remains, so decoding `to_bytes(true) ++ [0x00]` at shape
`bool` does not return `Ok(true)`. -/
theorem c4_counterexample_trailing :
    from_bytes_bool (to_bytes_bool true ++ [0]) = .err .TrailingCharacters ∧
    from_bytes_bool (to_bytes_bool true ++ [0]) ≠ .ok true := by decide

/-- C4 amended: the top-level `from_bytes` rejects trailing bytes — for a
`bool` value, decoding its encoding followed by any nonempty remainder
fails with `TrailingCharacters`. -/
theorem c4_amended_trailing_rejected :
    ∀ (b : Bool) (r : List Nat), r ≠ [] →
      from_bytes_bool (to_bytes_bool b ++ r) = .err .TrailingCharacters := by
  intro b r hr
  rcases r with _ | ⟨y, t⟩
  · exact absurd rfl hr
  · cases b <;> rfl

theorem c4_amended_trailing_rejected_witness :
    (([0] : List Nat) ≠ []) ∧
    from_bytes_bool (to_bytes_bool true ++ [0]) = .err .TrailingCharacters :=
  ⟨by decide, c4_amended_trailing_rejected true [0] (by decide)⟩

/-- C5 counterexample: decoding the claim's own example inputs
(`to_bytes(256u16)` as `u8`, `to_bytes(128i16)` as `i8`) does not yield
`IntegerOverflow`. -/
theorem c5_counterexample_error_kind :
    from_bytes_u8 (to_bytes_u16 256) ≠ .err .IntegerOverflow ∧
    from_bytes_i8 (to_bytes_i16 128) ≠ .err .IntegerOverflow := by decide

/-- C5 amended: those decodes do fail, but with `TrailingCharacters`
(the deserializer reads fixed-width raw bytes and the wrapper rejects the
leftover), not `IntegerOverflow`. -/
theorem c5_amended_overflow_trailing :
    from_bytes_u8 (to_bytes_u16 256) = .err .TrailingCharacters ∧
    from_bytes_i8 (to_bytes_i16 128) = .err .TrailingCharacters := by decide

/-- C6: the claim says every decode operation fails totally with `Eof` on
truncated input.  The varint decoders do return `Eof`, but the
deserializer primitives index the input slice without a bounds check:
`from_bytes::<bool>` on empty input panics (out-of-bounds index) instead
of returning `Err(Eof)`, and so does the two-byte read on a one-byte
input. -/
theorem c6_code_bug_eof_panic :
    decode_uint [] = .err .Eof ∧
    decode_uint [0xFF] = .err .Eof ∧
    decode_uint [0x80] = .err .Eof ∧
    decode_sint [] = .err .Eof ∧
    decode_sint [0x3F] = .err .Eof ∧
    from_bytes_bool [] = .panicked ∧
    from_bytes_bool [] ≠ .err .Eof ∧
    deserialize_u16 [0] = .panicked := by decide

/-- C7 counterexample: the signed encoding of `i128::MAX` is 18 bytes
long, not at most 17 as the claim states (level 15 uses three header
bytes plus fifteen data bytes). -/
theorem c7_counterexample_signed_length :
    (encode_sint 170141183460469231731687303715884105727).length = 18 ∧
    ¬ (encode_sint 170141183460469231731687303715884105727).length ≤ 17 := by
  decide

/-- C7 amended: both varint encodings are between 1 and 18 bytes long
(the signed maximum is 18, reached at level 15, not 17). -/
theorem c7_amended_length_bounds :
    (∀ v : Nat, v < 2 ^ 128 →
      1 ≤ (encode_uint v).length ∧ (encode_uint v).length ≤ 18) ∧
    (∀ v : Int, -(2 ^ 127) ≤ v → v < 2 ^ 127 →
      1 ≤ (encode_sint v).length ∧ (encode_sint v).length ≤ 18) := by
  have h2 : ((2 : Int) ^ 127) = 170141183460469231731687303715884105728 := by
    norm_num
  have h2n : ((2 : Nat) ^ 127) = 170141183460469231731687303715884105728 := by
    norm_num
  refine ⟨encode_uint_length_bounds, fun v h1 hv2 => ?_⟩
  rw [encode_sint_length_eq_magnitude v h1 hv2]
  by_cases hv : 0 ≤ v
  · rw [if_pos hv]
    exact encode_sint_magnitude_length_bounds _ (by omega)
  · rw [if_neg hv]
    exact encode_sint_magnitude_length_bounds _ (by omega)

theorem c7_amended_length_bounds_witness :
    (1 ≤ (encode_uint 5).length ∧ (encode_uint 5).length ≤ 18) ∧
    (1 ≤ (encode_sint (-5)).length ∧ (encode_sint (-5)).length ≤ 18) :=
  ⟨c7_amended_length_bounds.1 5 (by norm_num),
   c7_amended_length_bounds.2 (-5) (by norm_num) (by norm_num)⟩

/-- C8 counterexample: `encode_uint 128` is `80 00`, not `80 80`
(128 is the first value of level 1, so its data residue is 0;
`80 80` is the encoding of 256). -/
theorem c8_counterexample_encode_128 :
    encode_uint 128 ≠ [0x80, 0x80] ∧ encode_uint 128 = [0x80, 0x00] := by
  decide

/-- C8 amended: encoding the unsigned value 128 (at any width, e.g.
`128u32`, since every unsigned width funnels into `encode_uint`) produces
exactly `80 00`; the byte pair `80 80` is the encoding of 256. -/
theorem c8_amended_encode_128 :
    encode_uint 128 = [0x80, 0x00] ∧
    to_bytes_u32 128 = [0x80, 0x00] ∧
    encode_uint 256 = [0x80, 0x80] := by decide

/-- C9: sentinel framing (sentinel `0x00` for strings, `0x7F` for byte
strings) round-trips any byte sequence consuming exactly the encoding,
emits the escape pair `S 0x01` exactly once per occurrence of `S` and
ends with the terminator `S 0x00`, and the decoder rejects any byte after
the sentinel other than `0x00`/`0x01` as a malformed encoding. -/
theorem c9_sentinel_framing :
    ∀ S : Nat, S = 0x00 ∨ S = 0x7F →
      (∀ b r : List Nat,
        deserialize_with_sentinel S (serialize_with_sentinel b S ++ r) =
          .ok (b, r)) ∧
      (∀ b : List Nat,
        count_escape_pairs S (serialize_with_sentinel b S) = b.count S ∧
        ∃ p, serialize_with_sentinel b S = p ++ [S, 0x00]) ∧
      (∀ (x : Nat) (rest : List Nat), x ≠ 0x00 → x ≠ 0x01 →
        deserialize_with_sentinel S (S :: x :: rest) =
          .err (.Message "Invalid encoding")) := by
  intro S hs
  exact ⟨deserialize_serialize_with_sentinel S,
    fun b => ⟨count_escape_pairs_serialize S
      (by rcases hs with h | h <;> omega) b,
      serialize_with_sentinel_terminator b S⟩,
    fun x rest h0 h1 => deserialize_with_sentinel_reject S x rest h0 h1⟩

theorem c9_sentinel_framing_witness :
    ((0 : Nat) = 0x00 ∨ (0 : Nat) = 0x7F) ∧
    deserialize_with_sentinel 0 (serialize_with_sentinel [0, 2] 0 ++ [5]) =
      .ok ([0, 2], [5]) ∧
    count_escape_pairs 0 (serialize_with_sentinel [0, 2] 0) =
      ([0, 2] : List Nat).count 0 ∧
    deserialize_with_sentinel 0 (0 :: 7 :: []) =
      .err (.Message "Invalid encoding") :=
  ⟨Or.inl rfl,
   (c9_sentinel_framing 0 (Or.inl rfl)).1 [0, 2] [5],
   ((c9_sentinel_framing 0 (Or.inl rfl)).2.1 [0, 2]).1,
   (c9_sentinel_framing 0 (Or.inl rfl)).2.2 7 [] (by decide) (by decide)⟩

/-- C10: a fixed-size byte block (`FixedBytes`) of any length encodes to
exactly its bytes verbatim — no varint, framing, escaping or overhead —
and decoding those bytes at the same static length returns the block. -/
theorem c10_fixed_bytes_verbatim :
    ∀ a : List Nat,
      to_bytes_fixed_bytes a = a ∧
      from_bytes_fixed_bytes a.length a = .ok a := by
  intro a
  refine ⟨to_bytes_fixed_bytes_eq a, ?_⟩
  show run_from_bytes (deserialize_fixed_bytes a.length) a = .ok a
  rw [run_from_bytes, deserialize_fixed_bytes_exact]
  rfl

end Lexcode
